import Mathlib

/-!
Verification of the trout request router (the `key`/`node`/`trie` variant of the
source: trie construction, search, scoring, selection, parameter extraction and
the router facade).

Modelling conventions:
* Go pointer trees become a Lean inductive tree `Node`; the Go parent pointers
  are replaced by explicit ancestor chains (`List Key`, leaf first) carried
  alongside each search result, and by positions (`List Step`) into the tree.
* Go maps (`map[string]*node`, `map[string]http.Handler`, ...) become
  association lists; `http.Handler` and middleware values are opaque and
  modelled as `Nat` identifiers (they are only stored and compared, never run).
* Go `float64` scores are modelled in `Int`: every score the code computes is
  an integer (sums of `10^p * w` and a `10^(n+1)` penalty).
* Go functions that can panic on out-of-range indexing (`findNodes` reading
  `path[0]`) return `Option`, with `none` as the panic outcome.
-/

namespace Trout

/-- One template segment: the `key` struct of the source (`value`, `dynamic`,
`prefix`, `nul`).  The Go field `prefix` is a Lean keyword and is named `pfx`
here. -/
structure Key where
  value : String
  dynamic : Bool
  pfx : Bool
  nul : Bool
deriving DecidableEq, Repr

/-- The `key.equals` method of the source: all four fields must agree. -/
def Key.keyEquals (k other : Key) : Bool :=
  if k.value ≠ other.value then false
  else if k.dynamic ≠ other.dynamic then false
  else if k.pfx ≠ other.pfx then false
  else if k.nul ≠ other.nul then false
  else true

/-- The `key.String` method of the source: nul keys print as a sentinel,
dynamic keys are braced, prefix keys get a marker suffix. -/
def Key.keyString (k : Key) : String :=
  if k.nul then "{::NULL::}"
  else
    (if k.dynamic then "\x7b" else "")
      ++ k.value
      ++ (if k.pfx then "::prefix" else "")
      ++ (if k.dynamic then "\x7d" else "")

/-- A static (plain text) key. -/
def staticKey (s : String) : Key := ⟨s, false, false, false⟩

/-- A dynamic (parameter) key. -/
def dynKey (s : String) : Key := ⟨s, true, false, false⟩

/-- The null terminator key (`key{nul: true}` in the source). -/
def nulKey : Key := ⟨"", false, false, true⟩

/-- The `node` struct of the source.  The Go parent pointer is dropped (the
tree is walked from the root; ancestor chains are reconstructed by the
search), `children` is the static-children map, `wildChildren` the ordered
wildcard children, `terminator` the optional dedicated nul-terminator child,
`methods`/`middleware` the per-method handler and middleware tables. -/
inductive Node where
  | mk
      (value : Key)
      (term : Bool)
      (depth : Nat)
      (terminator : Option Node)
      (children : List (String × Node))
      (wildChildren : List Node)
      (methods : List (String × Nat))
      (middleware : List (String × List Nat))
deriving Repr

/-- Key of a node. -/
def Node.value : Node → Key
  | .mk v _ _ _ _ _ _ _ => v

/-- Terminator flag of a node. -/
def Node.term : Node → Bool
  | .mk _ t _ _ _ _ _ _ => t

/-- Depth of a node. -/
def Node.depth : Node → Nat
  | .mk _ _ d _ _ _ _ _ => d

/-- Terminator child of a node. -/
def Node.terminator : Node → Option Node
  | .mk _ _ _ tm _ _ _ _ => tm

/-- Static children of a node. -/
def Node.children : Node → List (String × Node)
  | .mk _ _ _ _ ch _ _ _ => ch

/-- Wildcard children of a node. -/
def Node.wildChildren : Node → List Node
  | .mk _ _ _ _ _ w _ _ => w

/-- Method table of a node. -/
def Node.methods : Node → List (String × Nat)
  | .mk _ _ _ _ _ _ m _ => m

/-- Middleware table of a node. -/
def Node.middleware : Node → List (String × List Nat)
  | .mk _ _ _ _ _ _ _ mw => mw

/-- Association list lookup keyed by `String` (a Go map read). -/
def lookupStr {α : Type} : List (String × α) → String → Option α
  | [], _ => none
  | (k, v) :: rest, s => if k = s then some v else lookupStr rest s

/-- Association list write (a Go map write): replace the first binding of the
key, or append a new binding. -/
def setStr {α : Type} : List (String × α) → String → α → List (String × α)
  | [], s, v => [(s, v)]
  | (k, v') :: rest, s, v => if k = s then (k, v) :: rest else (k, v') :: setStr rest s v

/-- Apply a function to the value bound to a key (no-op when absent). -/
def updStr {α : Type} : List (String × α) → String → (α → α) → List (String × α)
  | [], _, _ => []
  | (k, v) :: rest, s, f => if k = s then (k, f v) :: rest else (k, v) :: updStr rest s f

/-- The wildcard-children scan of `trie.add`: the first wildcard child whose
key `equals` the given key. -/
def firstWild : List Node → Key → Option Node
  | [], _ => none
  | w :: ws, k => if w.value.keyEquals k then some w else firstWild ws k

/-- Replace the first wildcard child whose key `equals` the given key
(no-op when absent). -/
def updFirstWild : List Node → Key → (Node → Node) → List Node
  | [], _, _ => []
  | w :: ws, k, f => if w.value.keyEquals k then f w :: ws else w :: updFirstWild ws k f

/-- One step of a position in the tree: into the static child with a literal,
into the (first) wildcard child with a key, or into the terminator child. -/
inductive Step where
  | static (s : String)
  | wild (k : Key)
  | term
deriving DecidableEq, Repr

/-- Read the node at a position (a chain of child steps). -/
def getAt : Node → List Step → Option Node
  | n, [] => some n
  | n, .static s :: ps => (lookupStr n.children s).bind (fun c => getAt c ps)
  | n, .wild k :: ps => (firstWild n.wildChildren k).bind (fun c => getAt c ps)
  | n, .term :: ps => n.terminator.bind (fun c => getAt c ps)

/-- Rewrite the node at a position (no-op when the position is dead). -/
def modifyAt : Node → List Step → (Node → Node) → Node
  | n, [], f => f n
  | .mk v t d tm ch w m mw, .static s :: ps, f =>
      .mk v t d tm (updStr ch s (fun c => modifyAt c ps f)) w m mw
  | .mk v t d tm ch w m mw, .wild k :: ps, f =>
      .mk v t d tm ch (updFirstWild w k (fun c => modifyAt c ps f)) m mw
  | .mk v t d tm ch w m mw, .term :: ps, f =>
      .mk v t d (tm.map (fun c => modifyAt c ps f)) ch w m mw

/-- The `node.newChild` construction for a non-terminator child: fresh node
with the given key, empty children and tables. -/
def freshNode (k : Key) (parentDepth : Nat) : Node :=
  .mk k false (parentDepth + 1) none [] [] [] []

/-- The `node.newChild` construction for the nul-terminator child. -/
def freshTerm (parentDepth : Nat) : Node :=
  .mk nulKey true (parentDepth + 1) none [] [] [] []

/-- The `trie.add` walk: insert the key chain below a node, creating missing
children, and return the updated node together with the position of the
terminator node of the chain (reused when it already exists).  The Go
`methods` argument of `trie.add` is ignored by its body and omitted here. -/
def add : Node → List Key → Node × List Step
  | n, [] =>
    match n.terminator with
    | some _ => (n, [Step.term])
    | none =>
      match n with
      | .mk v t d _ ch w m mw => (.mk v t d (some (freshTerm d)) ch w m mw, [Step.term])
  | n, piece :: rest =>
    if piece.dynamic then
      match firstWild n.wildChildren piece with
      | some wild =>
        let r := add wild rest
        match n with
        | .mk v t d tm ch w m mw =>
          (.mk v t d tm ch (updFirstWild w piece (fun _ => r.1)) m mw, Step.wild piece :: r.2)
      | none =>
        let r := add (freshNode piece n.depth) rest
        match n with
        | .mk v t d tm ch w m mw =>
          (.mk v t d tm ch (w ++ [r.1]) m mw, Step.wild piece :: r.2)
    else
      match lookupStr n.children piece.value with
      | some c =>
        let r := add c rest
        match n with
        | .mk v t d tm ch w m mw =>
          (.mk v t d tm (setStr ch piece.value r.1) w m mw, Step.static piece.value :: r.2)
      | none =>
        let r := add (freshNode piece n.depth) rest
        match n with
        | .mk v t d tm ch w m mw =>
          (.mk v t d tm (ch ++ [(piece.value, r.1)]) w m mw, Step.static piece.value :: r.2)

/-- A search result: the matched node together with its ancestor key chain
(leaf first, ending with the root's key).  The chain replaces the Go parent
pointers for scoring, parameter extraction and pattern printing. -/
structure Cand where
  chain : List Key
  node : Node

/-- The wildcard-children loop of `findNodes`, parameterised by the recursive
call on the remaining path. -/
def goWilds (f : Node → Option (List Cand)) (self : List Key) (ws : List Node)
    (rest : List String) : Option (List Cand) :=
  match ws with
  | [] => some []
  | w :: ws' =>
    let head : Option (List Cand) :=
      if rest.length < 1 then
        some (if w.terminator.isSome then [⟨w.value :: self, w⟩] else [])
      else f w
    match head, goWilds f self ws' rest with
    | some a, some b => some (a ++ b)
    | _, _ => none

/-- The recursive `findNodes` of the source: all terminator-owning (or
prefix) nodes consistent with the path.  `anc` is the ancestor chain of `n`
(excluding `n` itself); the Go code reads `path[0]` unconditionally after the
prefix check, so an empty path is the panic outcome `none`. -/
def findNodes : List String → List Key → Node → Option (List Cand)
  | path, anc, n =>
    if n.value.pfx then some [⟨n.value :: anc, n⟩]
    else
      match path with
      | [] => none
      | p :: rest =>
        let self := n.value :: anc
        let staticR : Option (List Cand) :=
          match lookupStr n.children p with
          | none => some []
          | some c =>
            if rest.length < 1 then
              some (if c.terminator.isSome then [⟨c.value :: self, c⟩] else [])
            else findNodes rest self c
        match staticR, goWilds (fun w => findNodes rest self w) self n.wildChildren rest with
        | some a, some b => some (a ++ b)
        | _, _ => none

/-- The `trie.findNodes` entry point (the lock is a no-op in this pure
model): search from the root with an empty ancestor chain. -/
def findNodesT (root : Node) (path : List String) : Option (List Cand) :=
  findNodes path [] root

/-- The `scoreNode` recursion over the ancestor chain: each non-nul key
contributes `10^power * w` with `w = 2` for plain static keys and `w = 1`
for dynamic or prefix keys; `pieces` is sliced exactly as in the source but
never read. -/
def scoreNode (c : List Key) (pieces : List String) (power : Nat) : Int :=
  match c with
  | [] => 0
  | k :: rest =>
    let score := scoreNode rest pieces.dropLast (power + 1)
    if k.nul then score
    else score + 10 ^ power * (if !k.dynamic && !k.pfx then 2 else 1)

/-- The catch-all method sentinel (`catchAllMethod = "*"`). -/
def catchAllMethod : String := "*"

/-- The effective score `pickNode` ranks a candidate by: the raw `scoreNode`
value, lowered by `10^(len(pieces)+1)` when the terminator's method table has
no entry for the requested method.  (The source checks only the requested
method here, not the catch-all entry.) -/
def effScore (c : Cand) (pieces : List String) (method : String) : Int :=
  match c.node.terminator with
  | none => scoreNode c.chain pieces 0
  | some tn =>
    if (lookupStr tn.methods method).isNone then
      scoreNode c.chain pieces 0 - 10 ^ (pieces.length + 1)
    else scoreNode c.chain pieces 0

/-- The loop of `pickNode`: keep the best (strictly higher effective score)
candidate that has a terminator, first occurrence winning ties. -/
def pickAux (cands : List Cand) (pieces : List String) (method : String)
    (best : Option (Cand × Int)) : Option (Cand × Int) :=
  match cands with
  | [] => best
  | c :: rest =>
    match c.node.terminator with
    | none => pickAux rest pieces method best
    | some _ =>
      let s := effScore c pieces method
      match best with
      | none => pickAux rest pieces method (some (c, s))
      | some (b, mx) =>
        if s > mx then pickAux rest pieces method (some (c, s))
        else pickAux rest pieces method (some (b, mx))

/-- The `pickNode` of the source: select the best candidate and return its
terminator node (with the terminator's ancestor chain). -/
def pickNode (cands : List Cand) (pieces : List String) (method : String) : Option Cand :=
  match pickAux cands pieces method none with
  | none => none
  | some (b, _) =>
    match b.node.terminator with
    | none => none
    | some tn => some ⟨tn.value :: b.chain, tn⟩

/-- A Go `params[k] = append(params[k], v)` write on the parameter map. -/
def mapAppend (m : List (String × List String)) (k : String) (v : String) :
    List (String × List String) :=
  match m with
  | [] => [(k, [v])]
  | (k', vs) :: rest => if k' = k then (k', vs ++ [v]) :: rest else (k', vs) :: mapAppend rest k v

/-- The `vars` recursion of the source over the ancestor chain, with the
input segments already reversed (the source consumes the input from its last
segment backwards: `input[len(input)-1]` is recorded and the recursion gets
`input[:len(input)-1]`; on the reversed list that is the head and the tail):
hop over a nul head to its parent, recurse on the parent chain with the
remaining segments, record a consumed segment under a dynamic key's name. -/
def varsRev : List String → List Key → List (String × List String)
  | [], _ => []
  | i :: ris, c =>
    match c with
    | [] => []
    | k :: rest =>
      let hop : Option (Key × List Key) :=
        if k.nul then
          match rest with
          | [] => none
          | k' :: rest' => some (k', rest')
        else some (k, rest)
      match hop with
      | none => []
      | some (k', rest') =>
        let params := varsRev ris rest'
        if k'.dynamic then mapAppend params k'.value i
        else params

/-- The `vars` function of the source: walk the ancestor chain leaf-first
against the input segments last-first. -/
def vars (c : List Key) (input : List String) : List (String × List String) :=
  varsRev input.reverse c

/-- The `pathString` recursion over the ancestor chain: concatenate the
printed keys root-first, skipping nul and empty keys. -/
def pathString (c : List Key) : String :=
  match c with
  | [] => ""
  | k :: rest =>
    let res := pathString rest
    if k.nul || k.keyString = "" then res
    else res ++ "/" ++ k.keyString

/-- The `route` result struct of the source (`handler`, `pattern`, `params`,
`methods`, `middleware`). -/
structure Route where
  handler : Option Nat
  pattern : String
  params : List (String × List String)
  methods : List String
  middleware : List Nat
deriving DecidableEq, Repr

/-- The `Router.route` method (with an empty router path prefix): search,
select, then read pattern, params, supported methods, handler and middleware
from the selected terminator.  The outer `none` is the propagated panic of
`findNodes` on an empty piece list; `some none` is Go's `nil` route. -/
def routeFn (root : Node) (pieces : List String) (method : String) :
    Option (Option Route) :=
  match findNodesT root pieces with
  | none => none
  | some nodes =>
    if nodes.length < 1 then some none
    else
      match pickNode nodes pieces method with
      | none => some none
      | some tc =>
        let handlerHit := lookupStr tc.node.methods method
        some (some
          { handler :=
              match handlerHit with
              | some h => some h
              | none => lookupStr tc.node.methods catchAllMethod
            pattern := pathString tc.chain
            params := vars tc.chain pieces
            methods := tc.node.methods.map Prod.fst
            middleware :=
              match handlerHit with
              | some _ => (lookupStr tc.node.middleware method).getD []
              | none => (lookupStr tc.node.middleware catchAllMethod).getD [] })

/-- The three-valued dispatch outcome of `Router.getHandler`. -/
inductive Outcome where
  | notFound
  | methodNotAllowed (methods : List String)
  | matched (handler : Nat) (middleware : List Nat)
deriving DecidableEq, Repr

/-- The decision logic of `Router.getHandler` after the path has been split
into pieces: nil trie or nil route or empty method table is 404, a route
without a resolved handler but with methods is 405, else the handler (with
its route middleware). -/
def outcomeOf (t : Option Node) (pieces : List String) (method : String) :
    Option Outcome :=
  match t with
  | none => some .notFound
  | some root =>
    match routeFn root pieces method with
    | none => none
    | some none => some .notFound
    | some (some r) =>
      match r.handler with
      | none =>
        if r.methods.length < 1 then some .notFound
        else some (.methodNotAllowed r.methods)
      | some h => some (.matched h r.middleware)

/-- Go `strings.Trim(s, "/")` on the character level. -/
def goTrimSlash (cs : List Char) : List Char :=
  ((cs.dropWhile (fun c => c = '/')).reverse.dropWhile (fun c => c = '/')).reverse

/-- Go `strings.Split(s, "/")`: the (always non-empty) list of substrings
between slashes. -/
def goSplitSlash : List Char → List Char → List String
  | acc, [] => [String.mk acc.reverse]
  | acc, c :: rest =>
    if c = '/' then String.mk acc.reverse :: goSplitSlash [] rest
    else goSplitSlash (c :: acc) rest

/-- The piece list `Router.getHandler` builds from a request path:
`strings.Split(strings.Trim(u, "/"), "/")`. -/
def splitPath (s : String) : List String :=
  goSplitSlash [] (goTrimSlash s.toList)

/-- `Router.getHandler` on a raw request path (the router path prefix is
empty in this model, and the timing header is dropped). -/
def getHandlerOutcome (t : Option Node) (path : String) (method : String) :
    Option Outcome :=
  outcomeOf t (splitPath path) method

/-- One piece of `keysFromString`: a brace-wrapped piece becomes a dynamic
key named by the inner text, anything else a static key. -/
def keyOfPiece (p : String) : Key :=
  let cs := p.toList
  if cs.head? = some '{' ∧ cs.getLast? = some '}' then
    ⟨String.mk (cs.drop 1).dropLast, true, false, false⟩
  else ⟨p, false, false, false⟩

/-- `keysFromString` of the source: trim slashes, split on slashes, parse
each piece. -/
def keysFromString (s : String) : List Key :=
  (splitPath s).map keyOfPiece

/-- `Router.Prefix` marks the last key of the template as a prefix key. -/
def setLastPfx : List Key → List Key
  | [] => []
  | [k] => [{ k with pfx := true }]
  | k :: rest => k :: setLastPfx rest

/-- The root node a `Router` creates lazily on first registration. -/
def root0 : Node := .mk ⟨"", false, false, false⟩ false 0 none [] [] [] []

/-- A call chained onto a registered `Endpoint` or `Prefix` value: `Handler`
(binds the catch-all method), `Methods(...).Handler`, `Middleware`, or
`Methods(...).Middleware`.  Handlers and middleware are opaque `Nat` ids. -/
inductive Bind where
  | handler (h : Nat)
  | methodsHandler (ms : List String) (h : Nat)
  | middleware (mws : List Nat)
  | methodsMiddleware (ms : List String) (mws : List Nat)
deriving DecidableEq, Repr

/-- Apply one chained call to the node it was registered on. -/
def applyBind (b : Bind) (n : Node) : Node :=
  match n, b with
  | .mk v t d tm ch w m mw, .handler h => .mk v t d tm ch w (setStr m catchAllMethod h) mw
  | .mk v t d tm ch w m mw, .methodsHandler ms h =>
      .mk v t d tm ch w (ms.foldl (fun acc method => setStr acc method h) m) mw
  | .mk v t d tm ch w m mw, .middleware mws =>
      .mk v t d tm ch w m (setStr mw catchAllMethod mws)
  | .mk v t d tm ch w m mw, .methodsMiddleware ms mws =>
      .mk v t d tm ch w m (ms.foldl (fun acc method => setStr acc method mws) mw)

/-- One registration: `Router.Endpoint(tpl)` or `Router.Prefix(tpl)` followed
by a sequence of chained calls on the returned value. -/
structure RegOp where
  isPrefixReg : Bool
  tpl : String
  binds : List Bind
deriving DecidableEq, Repr

/-- Apply one registration to the (possibly still absent) trie: create the
root lazily, insert the template's keys, then apply the chained calls at the
returned terminator position. -/
def applyOp (t : Option Node) (op : RegOp) : Option Node :=
  let root := t.getD root0
  let keys :=
    if op.isPrefixReg then setLastPfx (keysFromString op.tpl)
    else keysFromString op.tpl
  let r := add root keys
  some (op.binds.foldl (fun acc b => modifyAt acc r.2 (applyBind b)) r.1)

/-- Apply a sequence of registrations to an initially empty router. -/
def applyOps (ops : List RegOp) : Option Node :=
  ops.foldl applyOp none

/-! ### The matching pipeline with the trie state threaded through

The Go matching path (`findNodes`, `pickNode`, `scoreNode`, `vars`,
`pathString`, `Router.route`) holds only a read lock: it reads the children
maps, wildcard lists and method tables and performs no writes.  To state
that as a frame property, the pipeline is repeated here in state-passing
style: every call receives the trie and returns it, so that any write the
code performed would surface as a changed return component. -/

/-- State-threaded wildcard loop of `findNodes`. -/
def goWildsSt (f : Node → Node → Option (List Cand) × Node) (st : Node)
    (self : List Key) (ws : List Node) (rest : List String) :
    Option (List Cand) × Node :=
  match ws with
  | [] => (some [], st)
  | w :: ws' =>
    let head : Option (List Cand) × Node :=
      if rest.length < 1 then
        (some (if w.terminator.isSome then [⟨w.value :: self, w⟩] else []), st)
      else f st w
    let tail := goWildsSt f head.2 self ws' rest
    match head.1, tail.1 with
    | some a, some b => (some (a ++ b), tail.2)
    | _, _ => (none, tail.2)

/-- State-threaded `findNodes`. -/
def findNodesSt : List String → Node → List Key → Node → Option (List Cand) × Node
  | path, st, anc, n =>
    if n.value.pfx then (some [⟨n.value :: anc, n⟩], st)
    else
      match path with
      | [] => (none, st)
      | p :: rest =>
        let self := n.value :: anc
        let staticR : Option (List Cand) × Node :=
          match lookupStr n.children p with
          | none => (some [], st)
          | some c =>
            if rest.length < 1 then
              (some (if c.terminator.isSome then [⟨c.value :: self, c⟩] else []), st)
            else findNodesSt rest st self c
        let wildR := goWildsSt (fun st' w => findNodesSt rest st' self w) staticR.2 self
          n.wildChildren rest
        match staticR.1, wildR.1 with
        | some a, some b => (some (a ++ b), wildR.2)
        | _, _ => (none, wildR.2)

/-- State-threaded `scoreNode`. -/
def scoreNodeSt (st : Node) (c : List Key) (pieces : List String) (power : Nat) :
    Int × Node :=
  match c with
  | [] => (0, st)
  | k :: rest =>
    let r := scoreNodeSt st rest pieces.dropLast (power + 1)
    if k.nul then r
    else (r.1 + 10 ^ power * (if !k.dynamic && !k.pfx then 2 else 1), r.2)

/-- State-threaded `pickNode` loop. -/
def pickAuxSt (st : Node) (cands : List Cand) (pieces : List String) (method : String)
    (best : Option (Cand × Int)) : Option (Cand × Int) × Node :=
  match cands with
  | [] => (best, st)
  | c :: rest =>
    match c.node.terminator with
    | none => pickAuxSt st rest pieces method best
    | some tn =>
      let raw := scoreNodeSt st c.chain pieces 0
      let s :=
        if (lookupStr tn.methods method).isNone then raw.1 - 10 ^ (pieces.length + 1)
        else raw.1
      match best with
      | none => pickAuxSt raw.2 rest pieces method (some (c, s))
      | some (b, mx) =>
        if s > mx then pickAuxSt raw.2 rest pieces method (some (c, s))
        else pickAuxSt raw.2 rest pieces method (some (b, mx))

/-- State-threaded `pickNode`. -/
def pickNodeSt (st : Node) (cands : List Cand) (pieces : List String)
    (method : String) : Option Cand × Node :=
  let r := pickAuxSt st cands pieces method none
  match r.1 with
  | none => (none, r.2)
  | some (b, _) =>
    match b.node.terminator with
    | none => (none, r.2)
    | some tn => (some ⟨tn.value :: b.chain, tn⟩, r.2)

/-- State-threaded `varsRev`. -/
def varsRevSt : List String → Node → List Key → List (String × List String) × Node
  | [], st, _ => ([], st)
  | i :: ris, st, c =>
    match c with
    | [] => ([], st)
    | k :: rest =>
      let hop : Option (Key × List Key) :=
        if k.nul then
          match rest with
          | [] => none
          | k' :: rest' => some (k', rest')
        else some (k, rest)
      match hop with
      | none => ([], st)
      | some (k', rest') =>
        let r := varsRevSt ris st rest'
        if k'.dynamic then (mapAppend r.1 k'.value i, r.2)
        else r

/-- State-threaded `vars`. -/
def varsSt (st : Node) (c : List Key) (input : List String) :
    List (String × List String) × Node :=
  varsRevSt input.reverse st c

/-- State-threaded `pathString`. -/
def pathStringSt (st : Node) (c : List Key) : String × Node :=
  match c with
  | [] => ("", st)
  | k :: rest =>
    let r := pathStringSt st rest
    if k.nul || k.keyString = "" then r
    else (r.1 ++ "/" ++ k.keyString, r.2)

/-- State-threaded `Router.route`: the whole matching pipeline (search,
selection with scoring, parameter extraction, pattern construction) with the
trie state passed through every phase. -/
def routeSt (st : Node) (pieces : List String) (method : String) :
    Option (Option Route) × Node :=
  let found := findNodesSt pieces st [] st
  match found.1 with
  | none => (none, found.2)
  | some nodes =>
    if nodes.length < 1 then (some none, found.2)
    else
      let picked := pickNodeSt found.2 nodes pieces method
      match picked.1 with
      | none => (some none, picked.2)
      | some tc =>
        let pat := pathStringSt picked.2 tc.chain
        let prm := varsSt pat.2 tc.chain pieces
        let handlerHit := lookupStr tc.node.methods method
        (some (some
          { handler :=
              match handlerHit with
              | some h => some h
              | none => lookupStr tc.node.methods catchAllMethod
            pattern := pat.1
            params := prm.1
            methods := tc.node.methods.map Prod.fst
            middleware :=
              match handlerHit with
              | some _ => (lookupStr tc.node.middleware method).getD []
              | none => (lookupStr tc.node.middleware catchAllMethod).getD [] }), prm.2)

/-- Read of the parameter map with Go's zero value for a missing key. -/
def lookupVals (m : List (String × List String)) (s : String) : List String :=
  (lookupStr m s).getD []

/-- One child slot of a node, as read by `getAt`. -/
def childAt (n : Node) (s : Step) : Option Node :=
  match s with
  | .static v => lookupStr n.children v
  | .wild k => firstWild n.wildChildren k
  | .term => n.terminator

/-- A node-to-node function that rewrites only the handler/middleware tables
(as the `Handler`/`Methods.Handler`/`Middleware` registration calls do). -/
def TableOnly (f : Node → Node) : Prop :=
  ∀ n : Node, (f n).value = n.value ∧ (f n).terminator = n.terminator ∧
    (f n).children = n.children ∧ (f n).wildChildren = n.wildChildren

/-- Local shape invariant of a registered trie node: handler/middleware
tables only on nul terminator nodes, prefix nodes own a terminator, and the
dedicated terminator child carries the nul key. -/
def GoodNode (n : Node) : Prop :=
  (n.methods ≠ [] ∨ n.middleware ≠ [] → n.value.nul = true) ∧
  (n.value.pfx = true → n.terminator.isSome) ∧
  (∀ m, n.terminator = some m → m.value.nul = true)

/-- Shape invariant of a registered trie: every reachable node is good. -/
def Good (t : Node) : Prop :=
  ∀ pos n, getAt t pos = some n → GoodNode n

/-- The terminator-shape part of the invariant alone: every reachable
node's dedicated terminator child carries the nul key. -/
def TermNul (t : Node) : Prop :=
  ∀ pos n, getAt t pos = some n → ∀ x, n.terminator = some x → x.value.nul = true

/-- Keys handed to `add` by the registration API: only the last key may
carry the prefix flag. -/
def KeysOk (ks : List Key) : Prop := ∀ k ∈ ks.dropLast, k.pfx = false

/-- The part of the registered-trie invariant the search relies on: a
prefix-flagged node owns a terminator, and wildcard children have pairwise
distinct keys (insertion reuses an existing equal-keyed wildcard child, so
it never creates duplicates). -/
def SearchNode (n : Node) : Prop :=
  (n.value.pfx = true → n.terminator.isSome) ∧
  (n.wildChildren.map Node.value).Pairwise (fun a b => a ≠ b)

/-- Search invariant over the whole trie: every reachable node satisfies
`SearchNode`. -/
def SearchWF (t : Node) : Prop :=
  ∀ pos n, getAt t pos = some n → SearchNode n

/-- Registrations behind C1's counterexample: an `Endpoint` with no handler
ever bound. -/
def exC1ops : List RegOp := [⟨false, "/x", []⟩]

/-- The trie built by `exC1ops`. -/
def exC1root : Node := (applyOps exC1ops).getD root0

/-- Registrations behind C3's counterexample: a static endpoint with only a
catch-all handler, and a dynamic endpoint bound to GET. -/
def exC3ops : List RegOp :=
  [⟨false, "/v1", [.handler 1]⟩, ⟨false, "/{id}", [.methodsHandler ["GET"] 2]⟩]

/-- Registrations for C4's static-versus-dynamic example (the repository's
own test case): `/v1` and `/{id}` both bound to GET. -/
def exC4ops : List RegOp :=
  [⟨false, "/{id}", [.methodsHandler ["GET"] 2]⟩,
   ⟨false, "/v1", [.methodsHandler ["GET"] 1]⟩]

/-- The trie built by `exC4ops`. -/
def exC4root : Node := (applyOps exC4ops).getD root0

/-- Registrations for C5's example: `/prefix/static` as a prefix template and
`/prefix/{id}` as an endpoint, both bound to GET. -/
def exC5ops : List RegOp :=
  [⟨true, "/prefix/static", [.methodsHandler ["GET"] 1]⟩,
   ⟨false, "/prefix/{id}", [.methodsHandler ["GET"] 2]⟩]

/-- Registrations behind C6's counterexample: the dynamic prefix template
`/{id}` with a catch-all handler. -/
def exC6ops : List RegOp := [⟨true, "/{id}", [.handler 1]⟩]

/-- Registrations for C7's concrete part: the same template registered
twice, binding GET and then POST. -/
def exC7ops : List RegOp :=
  [⟨false, "/a/{b}", [.methodsHandler ["GET"] 1]⟩,
   ⟨false, "/a/{b}", [.methodsHandler ["POST"] 2]⟩]

/-- The single-chain trie that `exC7ops` must produce: root, static `a`,
wildcard `b`, and one terminator carrying both methods. -/
def exC7tree : Node :=
  .mk ⟨"", false, false, false⟩ false 0 none
    [("a", .mk ⟨"a", false, false, false⟩ false 1 none []
      [.mk ⟨"b", true, false, false⟩ false 2
        (some (.mk ⟨"", false, false, true⟩ true 3 none [] [] [("GET", 1), ("POST", 2)] []))
        [] [] [] []]
      [] [])]
    [] [] []

/-- Registrations for C8's witness: one endpoint with a GET handler. -/
def exC8ops : List RegOp := [⟨false, "/a", [.methodsHandler ["GET"] 1]⟩]

/-- The terminator node `exC8ops` produces at position `a/term`. -/
def exC8term : Node := .mk ⟨"", false, false, true⟩ true 2 none [] [] [("GET", 1)] []

/-- A concrete prefix node (the `static` node of `exC5ops`' prefix template)
used by witnesses. -/
def exPfxNode : Node :=
  .mk ⟨"static", false, true, false⟩ false 2
    (some (.mk ⟨"", false, false, true⟩ true 3 none [] [] [("GET", 1)] [])) [] [] [] []

/-- Concrete candidate for witnesses: static `/v1` node whose terminator
holds GET. -/
def exCandV1 : Cand :=
  ⟨[⟨"v1", false, false, false⟩, ⟨"", false, false, false⟩],
   .mk ⟨"v1", false, false, false⟩ false 1
     (some (.mk ⟨"", false, false, true⟩ true 2 none [] [] [("GET", 7)] [])) [] [] [] []⟩

/-- Concrete candidate for witnesses: dynamic `/id` node whose terminator
holds only POST. -/
def exCandId : Cand :=
  ⟨[⟨"id", true, false, false⟩, ⟨"", false, false, false⟩],
   .mk ⟨"id", true, false, false⟩ false 1
     (some (.mk ⟨"", false, false, true⟩ true 2 none [] [] [("POST", 8)] [])) [] [] [] []⟩

/-- The terminator node of `exCandV1`. -/
def exTermV1 : Node := .mk ⟨"", false, false, true⟩ true 2 none [] [] [("GET", 7)] []

/-- Registration with a repeated parameter name, for C6's concrete part. -/
def exRepOps : List RegOp := [⟨false, "/posts/{id}/comments/{id}", [.handler 9]⟩]

/-! ## Unfolding equations for the structurally recursive functions -/

theorem goWilds_nil (f : Node → Option (List Cand)) (self : List Key)
    (rest : List String) : goWilds f self [] rest = some [] := rfl

theorem goWilds_cons (f : Node → Option (List Cand)) (self : List Key)
    (w : Node) (ws : List Node) (rest : List String) :
    goWilds f self (w :: ws) rest =
      match
        (if rest.length < 1 then
          some (if w.terminator.isSome then [⟨w.value :: self, w⟩] else ([] : List Cand))
        else f w),
        goWilds f self ws rest with
      | some a, some b => some (a ++ b)
      | _, _ => none := rfl

theorem findNodes_nil (anc : List Key) (n : Node) :
    findNodes [] anc n =
      if n.value.pfx then some [⟨n.value :: anc, n⟩] else none := rfl

theorem findNodes_cons (p : String) (rest : List String) (anc : List Key) (n : Node) :
    findNodes (p :: rest) anc n =
      if n.value.pfx then some [⟨n.value :: anc, n⟩]
      else
        match
          (match lookupStr n.children p with
           | none => some []
           | some c =>
             if rest.length < 1 then
               some (if c.terminator.isSome then [⟨c.value :: (n.value :: anc), c⟩]
                 else ([] : List Cand))
             else findNodes rest (n.value :: anc) c),
          goWilds (fun w => findNodes rest (n.value :: anc) w) (n.value :: anc)
            n.wildChildren rest with
        | some a, some b => some (a ++ b)
        | _, _ => none := rfl

/-! ## Basic facts about the association-list and wildcard-list operations -/

theorem keyEquals_iff (k k' : Key) : k.keyEquals k' = true ↔ k = k' := by
  cases k; cases k'
  rw [Key.keyEquals]
  split_ifs <;> simp_all

theorem goSplitSlash_ne_nil (cs : List Char) : ∀ acc, goSplitSlash acc cs ≠ [] := by
  induction cs with
  | nil => intro acc; simp [goSplitSlash]
  | cons c rest ih =>
    intro acc
    rw [goSplitSlash]
    split_ifs <;> simp [ih]

theorem splitPath_ne_nil (s : String) : splitPath s ≠ [] :=
  goSplitSlash_ne_nil _ _

/-! ## Totality of the search on non-empty piece lists -/

theorem goWilds_isSome {f : Node → Option (List Cand)} {self : List Key} {ws : List Node}
    {rest : List String} (h : ∀ w ∈ ws, rest.length < 1 ∨ (f w).isSome) :
    (goWilds f self ws rest).isSome := by
  induction ws with
  | nil => simp [goWilds_nil]
  | cons w ws ih =>
    have hw := h w (by simp)
    have ih' := ih (fun w' hw' => h w' (by simp [hw']))
    rw [goWilds_cons]
    rcases Option.isSome_iff_exists.mp ih' with ⟨b, hb⟩
    by_cases hr : rest.length < 1
    · simp only [hr, if_true]
      rw [hb]
      simp
    · rcases hw with hlt | hsome
      · exact absurd hlt hr
      rcases Option.isSome_iff_exists.mp hsome with ⟨a, ha⟩
      simp only [hr, if_false]
      rw [ha, hb]
      simp

theorem findNodes_isSome :
    ∀ (path : List String), path ≠ [] → ∀ (anc : List Key) (n : Node),
      (findNodes path anc n).isSome := by
  intro path
  induction path with
  | nil => intro h; exact absurd rfl h
  | cons p rest ih =>
    intro _ anc n
    rw [findNodes_cons]
    by_cases hp : n.value.pfx
    · simp [hp]
    · simp only [hp, Bool.false_eq_true, if_false]
      have hwild : (goWilds (fun w => findNodes rest (n.value :: anc) w)
          (n.value :: anc) n.wildChildren rest).isSome := by
        apply goWilds_isSome
        intro w _
        by_cases hr : rest.length < 1
        · exact Or.inl hr
        · refine Or.inr (ih ?_ _ _)
          intro hnil
          simp [hnil] at hr
      rcases Option.isSome_iff_exists.mp hwild with ⟨b, hb⟩
      rw [hb]
      cases hc : lookupStr n.children p with
      | none => simp
      | some c =>
        by_cases hr : rest.length < 1
        · simp [hr]
        · simp only [hr, if_false]
          have : rest ≠ [] := by
            intro hnil
            simp [hnil] at hr
          rcases Option.isSome_iff_exists.mp (ih this (n.value :: anc) c) with ⟨a, ha⟩
          rw [ha]
          simp

theorem routeFn_isSome (root : Node) (pieces : List String) (method : String)
    (h : pieces ≠ []) : (routeFn root pieces method).isSome := by
  rw [routeFn]
  rcases Option.isSome_iff_exists.mp (findNodes_isSome pieces h [] root) with ⟨cs, hcs⟩
  have hT : findNodesT root pieces = some cs := hcs
  rw [hT]
  by_cases hl : cs.length < 1
  · simp [hl]
  · simp only [hl, if_false]
    cases pickNode cs pieces method <;> simp

theorem outcomeOf_isSome (t : Option Node) (pieces : List String) (method : String)
    (h : pieces ≠ []) : (outcomeOf t pieces method).isSome := by
  cases t with
  | none => simp [outcomeOf]
  | some root =>
    rw [outcomeOf]
    rcases Option.isSome_iff_exists.mp (routeFn_isSome root pieces method h) with ⟨r, hr⟩
    rw [hr]
    rcases r with _ | r'
    · simp
    · dsimp only
      rcases r'.handler with _ | hdl
      · dsimp only
        split <;> simp
      · simp

/-- C10: the recursive search terminates (it is a total function here), reads
the head of the path only when the path is non-empty (`findNodes` yields the
panic outcome `none` only on an empty path, and is total — `isSome` — on
every non-empty path, so every recursive call, which always receives a
strictly shorter non-empty remainder, is safe), and every top-level call is
made on the non-empty result of splitting the request path, so the router
never evaluates the search on an empty list. -/
theorem c10_search_totality :
    (∀ s : String, splitPath s ≠ []) ∧
    (∀ (path : List String), path ≠ [] → ∀ (anc : List Key) (n : Node),
      (findNodes path anc n).isSome) ∧
    (∀ (t : Option Node) (path : String) (method : String),
      (getHandlerOutcome t path method).isSome) :=
  ⟨splitPath_ne_nil, findNodes_isSome,
    fun t path method => outcomeOf_isSome t _ method (splitPath_ne_nil path)⟩

/-- Witness for C10 at concrete inputs. -/
theorem c10_search_totality_witness :
    splitPath "/a/b" ≠ [] ∧ (findNodes ["a"] [] root0).isSome ∧
      (getHandlerOutcome (some root0) "/" "GET").isSome :=
  ⟨c10_search_totality.1 "/a/b",
   c10_search_totality.2.1 ["a"] (by decide) [] root0,
   c10_search_totality.2.2 (some root0) "/" "GET"⟩

/-! ## The specificity score as a closed sum over the ancestor chain -/

/-- C4: the score of a matched node is the sum, over its ancestor chain
(leaf first, nul keys contributing nothing), of `10^p` times a weight that
is 2 for a plain static key and 1 for a dynamic or prefix key, with `p = 0`
at the matched node and growing by one per ancestor step; and with `/v1`
(static) and `/{id}` (dynamic) both registered for GET, a GET request to
`/v1` resolves to the static template's handler. -/
theorem c4_score_formula :
    (∀ (c : List Key) (pieces : List String) (power : Nat),
      scoreNode c pieces power =
        ∑ i ∈ Finset.range c.length,
          (if (c.getD i nulKey).nul then 0
           else 10 ^ (power + i) *
             (if (c.getD i nulKey).dynamic = true ∨ (c.getD i nulKey).pfx = true then (1 : Int)
              else 2))) ∧
    getHandlerOutcome (applyOps exC4ops) "/v1" "GET" = some (.matched 1 []) := by
  constructor
  · intro c
    induction c with
    | nil => intro pieces power; simp [scoreNode]
    | cons k rest ih =>
      intro pieces power
      rw [scoreNode]
      simp only [List.length_cons]
      rw [Finset.sum_range_succ']
      simp only [List.getD_cons_succ, List.getD_cons_zero]
      rw [ih pieces.dropLast (power + 1)]
      have harith : ∀ i : Nat, power + (i + 1) = power + 1 + i := by omega
      have hsum :
          (∑ i ∈ Finset.range rest.length,
            (if (rest.getD i nulKey).nul then 0
             else 10 ^ (power + (i + 1)) *
               (if (rest.getD i nulKey).dynamic = true ∨ (rest.getD i nulKey).pfx = true
                then (1 : Int) else 2))) =
          ∑ i ∈ Finset.range rest.length,
            (if (rest.getD i nulKey).nul then 0
             else 10 ^ (power + 1 + i) *
               (if (rest.getD i nulKey).dynamic = true ∨ (rest.getD i nulKey).pfx = true
                then (1 : Int) else 2)) := by
        refine Finset.sum_congr rfl ?_
        intro i _
        rw [harith i]
      rw [hsum]
      cases hk : k.nul
      · simp only [hk, Bool.false_eq_true, if_false, add_zero]
        have hw : (if !k.dynamic && !k.pfx then (2 : Int) else 1) =
            (if k.dynamic = true ∨ k.pfx = true then (1 : Int) else 2) := by
          cases k.dynamic <;> cases k.pfx <;> simp
        rw [hw, add_comm]
      · simp [hk]
  · decide

/-! ## Prefix nodes short-circuit the search -/

/-- C5: a prefix-flagged node makes the search return exactly that node at
once, whatever the remaining path (including the empty one); and with
`/prefix/static` registered as a prefix template and `/prefix/{id}` as an
endpoint (both for GET), a GET to `/prefix/static/bar/baz` resolves to the
prefix handler while a GET to `/prefix/foo` resolves to the dynamic one. -/
theorem c5_prefix_short_circuit :
    (∀ (path : List String) (anc : List Key) (n : Node), n.value.pfx = true →
      findNodes path anc n = some [⟨n.value :: anc, n⟩]) ∧
    getHandlerOutcome (applyOps exC5ops) "/prefix/static/bar/baz" "GET"
      = some (.matched 1 []) ∧
    getHandlerOutcome (applyOps exC5ops) "/prefix/foo" "GET" = some (.matched 2 []) := by
  refine ⟨?_, by decide, by decide⟩
  intro path anc n hp
  cases path with
  | nil => rw [findNodes_nil]; simp [hp]
  | cons p rest => rw [findNodes_cons]; simp [hp]

/-- Witness for C5 at a concrete prefix node, with remaining segments and
with none. -/
theorem c5_prefix_short_circuit_witness :
    findNodes ["bar", "baz"] [] exPfxNode = some [⟨[exPfxNode.value], exPfxNode⟩] ∧
    findNodes [] [] exPfxNode = some [⟨[exPfxNode.value], exPfxNode⟩] :=
  ⟨c5_prefix_short_circuit.1 ["bar", "baz"] [] exPfxNode (by decide),
   c5_prefix_short_circuit.1 [] [] exPfxNode (by decide)⟩

/-! ## The matching pipeline never writes to the trie -/

theorem goWildsSt_state {f : Node → Node → Option (List Cand) × Node}
    (hf : ∀ st w, (f st w).2 = st) :
    ∀ (ws : List Node) (st : Node) (self : List Key) (rest : List String),
      (goWildsSt f st self ws rest).2 = st := by
  intro ws
  induction ws with
  | nil => intro st self rest; rfl
  | cons w ws ih =>
    intro st self rest
    rw [goWildsSt]
    by_cases hr : rest.length < 1
    · simp only [hr, if_true]
      have ht := ih st self rest
      rcases hx : (goWildsSt f st self ws rest).1 <;> simp_all
    · simp only [hr, if_false]
      have hst : (f st w).2 = st := hf st w
      have ht := ih (f st w).2 self rest
      rcases hh : (f st w).1 with _ | a <;>
        rcases hx : (goWildsSt f (f st w).2 self ws rest).1 <;> simp_all

theorem findNodesSt_state :
    ∀ (path : List String) (st : Node) (anc : List Key) (n : Node),
      (findNodesSt path st anc n).2 = st := by
  intro path
  induction path with
  | nil =>
    intro st anc n
    rw [findNodesSt]
    by_cases hp : n.value.pfx <;> simp [hp]
  | cons p rest ih =>
    intro st anc n
    rw [findNodesSt]
    by_cases hp : n.value.pfx
    · simp [hp]
    · simp only [hp, Bool.false_eq_true, if_false]
      cases hc : lookupStr n.children p with
      | none =>
        have hw := goWildsSt_state (f := fun st' w => findNodesSt rest st' (n.value :: anc) w)
          (fun st' w => ih st' (n.value :: anc) w) n.wildChildren st (n.value :: anc) rest
        rcases hx : (goWildsSt (fun st' w => findNodesSt rest st' (n.value :: anc) w) st
          (n.value :: anc) n.wildChildren rest).1 <;> simp_all
      | some c =>
        by_cases hr : rest.length < 1
        · have hw := goWildsSt_state (f := fun st' w => findNodesSt rest st' (n.value :: anc) w)
            (fun st' w => ih st' (n.value :: anc) w) n.wildChildren st (n.value :: anc) rest
          rcases hx : (goWildsSt (fun st' w => findNodesSt rest st' (n.value :: anc) w) st
            (n.value :: anc) n.wildChildren rest).1 <;>
            rcases ht : c.terminator.isSome <;> simp_all
        · have hs := ih st (n.value :: anc) c
          have hw := goWildsSt_state (f := fun st' w => findNodesSt rest st' (n.value :: anc) w)
            (fun st' w => ih st' (n.value :: anc) w) n.wildChildren
            (findNodesSt rest st (n.value :: anc) c).2 (n.value :: anc) rest
          rcases hx : (goWildsSt (fun st' w => findNodesSt rest st' (n.value :: anc) w)
            (findNodesSt rest st (n.value :: anc) c).2 (n.value :: anc) n.wildChildren rest).1 <;>
            rcases hy : (findNodesSt rest st (n.value :: anc) c).1 <;> simp_all

theorem scoreNodeSt_state (c : List Key) :
    ∀ (st : Node) (pieces : List String) (power : Nat),
      (scoreNodeSt st c pieces power).2 = st := by
  induction c with
  | nil => intro st pieces power; rfl
  | cons k rest ih =>
    intro st pieces power
    rw [scoreNodeSt]
    by_cases hk : k.nul <;> simp [hk, ih]

theorem pickAuxSt_state (cands : List Cand) :
    ∀ (st : Node) (pieces : List String) (method : String) (best : Option (Cand × Int)),
      (pickAuxSt st cands pieces method best).2 = st := by
  induction cands with
  | nil => intro st pieces method best; rfl
  | cons c rest ih =>
    intro st pieces method best
    rw [pickAuxSt]
    cases c.node.terminator with
    | none => exact ih st pieces method best
    | some tn =>
      cases best with
      | none => simp only; rw [ih]; exact scoreNodeSt_state _ _ _ _
      | some b =>
        simp only
        split <;> split <;> rw [ih] <;> exact scoreNodeSt_state _ _ _ _

theorem pickNodeSt_state (st : Node) (cands : List Cand) (pieces : List String)
    (method : String) : (pickNodeSt st cands pieces method).2 = st := by
  rw [pickNodeSt]
  have h := pickAuxSt_state cands st pieces method none
  rcases hx : (pickAuxSt st cands pieces method none).1 with _ | b
  · simpa [hx] using h
  · simp only [hx]
    cases b.1.node.terminator <;> exact h

theorem varsRevSt_state : ∀ (rinput : List String) (st : Node) (c : List Key),
    (varsRevSt rinput st c).2 = st := by
  intro rinput
  induction rinput with
  | nil => intro st c; rfl
  | cons i ris ih =>
    intro st c
    cases c with
    | nil => rfl
    | cons k rest =>
      rw [varsRevSt.eq_def]
      simp only
      by_cases hk : k.nul
      · simp only [hk, if_true]
        cases rest with
        | nil => rfl
        | cons k' rest' =>
          simp only
          split <;> simp [ih]
      · simp only [hk, Bool.false_eq_true, if_false]
        split <;> simp [ih]

theorem varsSt_state (st : Node) (c : List Key) (input : List String) :
    (varsSt st c input).2 = st :=
  varsRevSt_state input.reverse st c

theorem pathStringSt_state (c : List Key) : ∀ (st : Node), (pathStringSt st c).2 = st := by
  induction c with
  | nil => intro st; rfl
  | cons k rest ih =>
    intro st
    rw [pathStringSt]
    split <;> simp [ih]

theorem routeSt_state (st : Node) (pieces : List String) (method : String) :
    (routeSt st pieces method).2 = st := by
  rw [routeSt]
  have hfind := findNodesSt_state pieces st [] st
  rcases hx : (findNodesSt pieces st [] st).1 with _ | nodes
  · simpa [hx] using hfind
  · simp only [hx]
    by_cases hl : nodes.length < 1
    · simpa [hl] using hfind
    · simp only [hl, if_false]
      have hpick := pickNodeSt_state (findNodesSt pieces st [] st).2 nodes pieces method
      rcases hp : (pickNodeSt (findNodesSt pieces st [] st).2 nodes pieces method).1 with _ | tc
      · simp only [hp]
        rw [hpick, hfind]
      · simp only [hp]
        rw [varsSt_state, pathStringSt_state, hpick, hfind]

/-- C9: matching is read-only — search, scoring, selection, parameter
extraction, pattern construction and the whole `route` pipeline, written in
state-passing style over the trie, all return the trie exactly as given, so
every node's children map, wildcard list and method/middleware tables are
unchanged by a match. -/
theorem c9_match_read_only :
    (∀ (path : List String) (st : Node) (anc : List Key) (n : Node),
      (findNodesSt path st anc n).2 = st) ∧
    (∀ (st : Node) (c : List Key) (pieces : List String) (power : Nat),
      (scoreNodeSt st c pieces power).2 = st) ∧
    (∀ (st : Node) (cands : List Cand) (pieces : List String) (method : String),
      (pickNodeSt st cands pieces method).2 = st) ∧
    (∀ (st : Node) (c : List Key) (input : List String), (varsSt st c input).2 = st) ∧
    (∀ (st : Node) (c : List Key), (pathStringSt st c).2 = st) ∧
    (∀ (st : Node) (pieces : List String) (method : String),
      (routeSt st pieces method).2 = st) :=
  ⟨findNodesSt_state, fun st c pieces power => scoreNodeSt_state c st pieces power,
   pickNodeSt_state, varsSt_state, fun st c => pathStringSt_state c st, routeSt_state⟩

/-! ## What the selection loop returns -/

theorem pickAux_some_start (pieces : List String) (method : String) :
    ∀ (cands : List Cand) (b0 : Cand),
      (∀ c ∈ cands, c.node.terminator.isSome) →
      ∃ b s, pickAux cands pieces method (some (b0, effScore b0 pieces method)) = some (b, s) ∧
        (b = b0 ∨ b ∈ cands) ∧ s = effScore b pieces method ∧
        effScore b0 pieces method ≤ s ∧
        ∀ c ∈ cands, effScore c pieces method ≤ s := by
  intro cands
  induction cands with
  | nil =>
    intro b0 _
    exact ⟨b0, _, rfl, Or.inl rfl, rfl, le_refl _, by simp⟩
  | cons c rest ih =>
    intro b0 h
    rcases Option.isSome_iff_exists.mp (h c (by simp)) with ⟨tn, htn⟩
    have hrest : ∀ c' ∈ rest, c'.node.terminator.isSome :=
      fun c' hc' => h c' (by simp [hc'])
    rw [pickAux]
    rw [htn]
    simp only
    by_cases hgt : effScore c pieces method > effScore b0 pieces method
    · simp only [hgt, if_true]
      obtain ⟨b, s, heq, hmem, hs, hlec, hall⟩ := ih c hrest
      refine ⟨b, s, heq, ?_, hs, le_trans (le_of_lt hgt) hlec, ?_⟩
      · rcases hmem with rfl | hmem
        · exact Or.inr (by simp)
        · exact Or.inr (by simp [hmem])
      · intro x hx
        rcases List.mem_cons.mp hx with rfl | hx
        · exact hlec
        · exact hall x hx
    · simp only [hgt, if_false]
      obtain ⟨b, s, heq, hmem, hs, hleb, hall⟩ := ih b0 hrest
      refine ⟨b, s, heq, ?_, hs, hleb, ?_⟩
      · rcases hmem with rfl | hmem
        · exact Or.inl rfl
        · exact Or.inr (by simp [hmem])
      · intro x hx
        rcases List.mem_cons.mp hx with rfl | hx
        · exact le_trans (not_lt.mp hgt) hleb
        · exact hall x hx

theorem pickAux_none_spec (pieces : List String) (method : String) (cands : List Cand)
    (hne : cands ≠ []) (hterm : ∀ c ∈ cands, c.node.terminator.isSome) :
    ∃ b s, pickAux cands pieces method none = some (b, s) ∧ b ∈ cands ∧
      s = effScore b pieces method ∧
      ∀ c ∈ cands, effScore c pieces method ≤ s := by
  cases cands with
  | nil => exact absurd rfl hne
  | cons c rest =>
    rcases Option.isSome_iff_exists.mp (hterm c (by simp)) with ⟨tn, htn⟩
    have hrest : ∀ c' ∈ rest, c'.node.terminator.isSome :=
      fun c' hc' => hterm c' (by simp [hc'])
    rw [pickAux]
    rw [htn]
    simp only
    obtain ⟨b, s, heq, hmem, hs, hlec, hall⟩ := pickAux_some_start pieces method rest c hrest
    refine ⟨b, s, heq, ?_, hs, ?_⟩
    · rcases hmem with rfl | hmem
      · simp
      · simp [hmem]
    · intro x hx
      rcases List.mem_cons.mp hx with rfl | hx
      · exact hlec
      · exact hall x hx

theorem pickNode_spec (cands : List Cand) (pieces : List String) (method : String)
    (hne : cands ≠ []) (hterm : ∀ c ∈ cands, c.node.terminator.isSome) :
    ∃ b tn, b ∈ cands ∧ b.node.terminator = some tn ∧
      pickNode cands pieces method = some ⟨tn.value :: b.chain, tn⟩ ∧
      ∀ c ∈ cands, effScore c pieces method ≤ effScore b pieces method := by
  obtain ⟨b, s, heq, hmem, hs, hall⟩ := pickAux_none_spec pieces method cands hne hterm
  rcases Option.isSome_iff_exists.mp (hterm b hmem) with ⟨tn, htn⟩
  refine ⟨b, tn, hmem, htn, ?_, by simpa [hs] using hall⟩
  rw [pickNode, heq]
  dsimp only
  rw [htn]

theorem effScore_of_unsupported (c : Cand) (pieces : List String) (method : String)
    (tn : Node) (htn : c.node.terminator = some tn)
    (hl : lookupStr tn.methods method = none) :
    effScore c pieces method = scoreNode c.chain pieces 0 - 10 ^ (pieces.length + 1) := by
  rw [effScore, htn]
  dsimp only
  rw [hl]
  simp

/-- C2: on a non-empty candidate set whose members all own terminators and
none of whose terminators' method tables contain the requested method,
`pickNode` still returns a candidate (its terminator node), and the returned
candidate carries the highest raw specificity score of the whole set. -/
theorem c2_unsupported_still_selected (cands : List Cand) (pieces : List String)
    (method : String) (hne : cands ≠ [])
    (hterm : ∀ c ∈ cands, c.node.terminator.isSome)
    (hnosup : ∀ c ∈ cands, ∀ tn, c.node.terminator = some tn →
      lookupStr tn.methods method = none) :
    ∃ b tn, b ∈ cands ∧ b.node.terminator = some tn ∧
      pickNode cands pieces method = some ⟨tn.value :: b.chain, tn⟩ ∧
      ∀ c ∈ cands, scoreNode c.chain pieces 0 ≤ scoreNode b.chain pieces 0 := by
  obtain ⟨b, tn, hmem, htn, hpick, hmax⟩ := pickNode_spec cands pieces method hne hterm
  refine ⟨b, tn, hmem, htn, hpick, ?_⟩
  intro c hc
  rcases Option.isSome_iff_exists.mp (hterm c hc) with ⟨tn', htn'⟩
  have h1 := hmax c hc
  rw [effScore_of_unsupported c pieces method tn' htn' (hnosup c hc tn' htn'),
    effScore_of_unsupported b pieces method tn htn (hnosup b hmem tn htn)] at h1
  omega

/-- Witness for C2 on a one-element candidate set whose terminator only
supports POST while GET is requested. -/
theorem c2_unsupported_still_selected_witness :
    ∃ b tn,
      b ∈ [(⟨[⟨"x", false, false, false⟩],
            Node.mk ⟨"x", false, false, false⟩ false 1
              (some (Node.mk ⟨"", false, false, true⟩ true 2 none [] [] [("POST", 5)] []))
              [] [] [] []⟩ : Cand)] ∧
      b.node.terminator = some tn ∧
      pickNode [⟨[⟨"x", false, false, false⟩],
        Node.mk ⟨"x", false, false, false⟩ false 1
          (some (Node.mk ⟨"", false, false, true⟩ true 2 none [] [] [("POST", 5)] []))
          [] [] [] []⟩] ["x"] "GET" = some ⟨tn.value :: b.chain, tn⟩ ∧
      ∀ c ∈ [(⟨[⟨"x", false, false, false⟩],
            Node.mk ⟨"x", false, false, false⟩ false 1
              (some (Node.mk ⟨"", false, false, true⟩ true 2 none [] [] [("POST", 5)] []))
              [] [] [] []⟩ : Cand)],
        scoreNode c.chain ["x"] 0 ≤ scoreNode b.chain ["x"] 0 :=
  c2_unsupported_still_selected _ ["x"] "GET" (by simp)
    (by intro c hc; rw [List.mem_singleton] at hc; subst hc; decide)
    (by intro c hc tn htn; rw [List.mem_singleton] at hc; subst hc; cases htn; decide)

/-! ## Bounds on the specificity score and the method penalty -/

theorem scoreNode_nonneg : ∀ (c : List Key) (pieces : List String) (power : Nat),
    0 ≤ scoreNode c pieces power := by
  intro c
  induction c with
  | nil => intro pieces power; simp [scoreNode]
  | cons k rest ih =>
    intro pieces power
    rw [scoreNode]
    have h0 := ih pieces.dropLast (power + 1)
    by_cases hk : k.nul
    · simpa [hk] using h0
    · simp only [hk, Bool.false_eq_true, if_false]
      have h10 : (0 : Int) ≤ 10 ^ power := by positivity
      have hw : (0 : Int) ≤ if !k.dynamic && !k.pfx then 2 else 1 := by
        split <;> norm_num
      nlinarith

theorem scoreNode_add_pow_le : ∀ (c : List Key) (pieces : List String) (power : Nat),
    scoreNode c pieces power + 10 ^ power ≤ 10 ^ (power + c.length) := by
  intro c
  induction c with
  | nil => intro pieces power; simp [scoreNode]
  | cons k rest ih =>
    intro pieces power
    have hih := ih pieces.dropLast (power + 1)
    have hshift : power + (k :: rest).length = power + 1 + rest.length := by
      simp [List.length_cons]
      omega
    rw [scoreNode, hshift]
    have hpow : (10 : Int) ^ (power + 1) = 10 * 10 ^ power := by
      rw [pow_succ]
      ring
    have h10 : (0 : Int) < 10 ^ power := by positivity
    by_cases hk : k.nul
    · simp only [hk, if_true]
      linarith
    · simp only [hk, Bool.false_eq_true, if_false]
      have hw : (if !k.dynamic && !k.pfx then (2 : Int) else 1) ≤ 2 := by
        split <;> norm_num
      have h2 : 10 ^ power * (if !k.dynamic && !k.pfx then (2 : Int) else 1) ≤
          2 * 10 ^ power := by nlinarith
      linarith

theorem scoreNode_lt_penalty (c : List Key) (pieces : List String)
    (h : c.length ≤ pieces.length + 1) :
    scoreNode c pieces 0 < 10 ^ (pieces.length + 1) := by
  have h1 := scoreNode_add_pow_le c pieces 0
  simp only [pow_zero, Nat.zero_add] at h1
  have h2 : (10 : Int) ^ c.length ≤ 10 ^ (pieces.length + 1) := by
    apply pow_le_pow_right₀ (by norm_num) h
  omega

theorem goWilds_forall {f : Node → Option (List Cand)} {self : List Key}
    {ws : List Node} {rest : List String} (P : Cand → Prop)
    (hdir : ∀ w ∈ ws, rest.length < 1 → w.terminator.isSome → P ⟨w.value :: self, w⟩)
    (hf : ∀ w ∈ ws, ∀ cs', f w = some cs' → ∀ c ∈ cs', P c) :
    ∀ cs, goWilds f self ws rest = some cs → ∀ c ∈ cs, P c := by
  induction ws with
  | nil =>
    intro cs hcs
    rw [goWilds_nil] at hcs
    cases hcs
    simp
  | cons w ws ih =>
    intro cs hcs
    rw [goWilds_cons] at hcs
    have hdir' : ∀ w' ∈ ws, rest.length < 1 → w'.terminator.isSome → P ⟨w'.value :: self, w'⟩ :=
      fun w' hw' => hdir w' (by simp [hw'])
    have hf' : ∀ w' ∈ ws, ∀ cs', f w' = some cs' → ∀ c ∈ cs', P c :=
      fun w' hw' => hf w' (by simp [hw'])
    by_cases hr : rest.length < 1
    · simp only [hr, if_true] at hcs
      rcases hw : goWilds f self ws rest with _ | b
      · rw [hw] at hcs; cases hcs
      · rw [hw] at hcs
        simp only at hcs
        cases hcs
        intro c hc
        rcases List.mem_append.mp hc with hc | hc
        · by_cases ht : w.terminator.isSome
          · simp only [ht, if_true, List.mem_singleton] at hc
            subst hc
            exact hdir w (by simp) hr ht
          · simp [ht] at hc
        · exact ih hdir' hf' b hw c hc
    · simp only [hr, if_false] at hcs
      rcases ha : f w with _ | a
      · rw [ha] at hcs; cases hcs
      · rw [ha] at hcs
        rcases hw : goWilds f self ws rest with _ | b
        · rw [hw] at hcs; cases hcs
        · rw [hw] at hcs
          simp only at hcs
          cases hcs
          intro c hc
          rcases List.mem_append.mp hc with hc | hc
          · exact hf w (by simp) a ha c hc
          · exact ih hdir' hf' b hw c hc

theorem findNodes_chain_bound :
    ∀ (path : List String) (anc : List Key) (n : Node) (cs : List Cand),
      findNodes path anc n = some cs →
      ∀ c ∈ cs, c.chain.length ≤ anc.length + path.length + 1 := by
  intro path
  induction path with
  | nil =>
    intro anc n cs hcs c hc
    rw [findNodes_nil] at hcs
    by_cases hp : n.value.pfx
    · simp only [hp, if_true] at hcs
      cases hcs
      rcases List.mem_singleton.mp hc with rfl
      simp
    · simp [hp] at hcs
  | cons p rest ih =>
    intro anc n cs hcs c hc
    rw [findNodes_cons] at hcs
    by_cases hp : n.value.pfx
    · simp only [hp, if_true] at hcs
      cases hcs
      rcases List.mem_singleton.mp hc with rfl
      simp
    · simp only [hp, Bool.false_eq_true, if_false] at hcs
      have hbound : ∀ c' : Cand,
          c'.chain.length ≤ (n.value :: anc).length + rest.length + 1 →
          c'.chain.length ≤ anc.length + (p :: rest).length + 1 := by
        intro c' h
        simp only [List.length_cons] at h ⊢
        omega
      rcases hstat : (match lookupStr n.children p with
          | none => some []
          | some c =>
            if rest.length < 1 then
              some (if c.terminator.isSome then ([⟨c.value :: (n.value :: anc), c⟩] : List Cand)
                else [])
            else findNodes rest (n.value :: anc) c) with _ | a
      · rw [hstat] at hcs; cases hcs
      · rw [hstat] at hcs
        rcases hwild : goWilds (fun w => findNodes rest (n.value :: anc) w) (n.value :: anc)
            n.wildChildren rest with _ | b
        · rw [hwild] at hcs; cases hcs
        · rw [hwild] at hcs
          simp only at hcs
          cases hcs
          rcases List.mem_append.mp hc with hc | hc
          · cases hl : lookupStr n.children p with
            | none =>
              rw [hl] at hstat
              cases hstat
              simp at hc
            | some child =>
              rw [hl] at hstat
              by_cases hr : rest.length < 1
              · simp only [hr, if_true] at hstat
                cases hstat
                by_cases ht : child.terminator.isSome
                · simp only [ht, if_true, List.mem_singleton] at hc
                  subst hc
                  simp
                · simp [ht] at hc
              · simp only [hr, if_false] at hstat
                exact hbound c (ih (n.value :: anc) child a hstat c hc)
          · refine hbound c ?_
            refine goWilds_forall
              (fun c' => c'.chain.length ≤ (n.value :: anc).length + rest.length + 1)
              ?_ ?_ b hwild c hc
            · intro w _ _ _
              simp
            · intro w _ cs' hcs' c' hc'
              exact ih (n.value :: anc) w cs' hcs' c' hc'

/-- C3 (amended): in candidate selection, a candidate's score is reduced by
`10^(len(pieces)+1)` exactly when its terminator's method table has no entry
for the requested method — the catch-all entry does not prevent the penalty
— and the penalty is large enough that every candidate whose terminator
holds the requested method directly ranks strictly above every candidate
whose terminator does not, regardless of specificity scores; consequently,
whenever some candidate holds the requested method directly, the selected
terminator holds it too. -/
theorem c3_method_penalty (cands : List Cand) (pieces : List String) (method : String)
    (hterm : ∀ c ∈ cands, c.node.terminator.isSome)
    (hlen : ∀ c ∈ cands, c.chain.length ≤ pieces.length + 1) :
    (∀ c ∈ cands, ∀ tn, c.node.terminator = some tn →
      effScore c pieces method =
        scoreNode c.chain pieces 0 -
          (if lookupStr tn.methods method = none then 10 ^ (pieces.length + 1) else 0)) ∧
    (∀ c₁ ∈ cands, ∀ c₂ ∈ cands, ∀ tn₁ tn₂,
      c₁.node.terminator = some tn₁ → c₂.node.terminator = some tn₂ →
      (lookupStr tn₁.methods method).isSome → lookupStr tn₂.methods method = none →
      effScore c₂ pieces method < effScore c₁ pieces method) ∧
    ((∃ c ∈ cands, ∃ tn, c.node.terminator = some tn ∧
        (lookupStr tn.methods method).isSome) →
      ∃ tc, pickNode cands pieces method = some tc ∧
        (lookupStr tc.node.methods method).isSome) := by
  have hchar : ∀ c ∈ cands, ∀ tn, c.node.terminator = some tn →
      effScore c pieces method =
        scoreNode c.chain pieces 0 -
          (if lookupStr tn.methods method = none then 10 ^ (pieces.length + 1) else 0) := by
    intro c _ tn htn
    rw [effScore, htn]
    dsimp only
    cases hl : lookupStr tn.methods method <;> simp [hl]
  have hord : ∀ c₁ ∈ cands, ∀ c₂ ∈ cands, ∀ tn₁ tn₂,
      c₁.node.terminator = some tn₁ → c₂.node.terminator = some tn₂ →
      (lookupStr tn₁.methods method).isSome → lookupStr tn₂.methods method = none →
      effScore c₂ pieces method < effScore c₁ pieces method := by
    intro c₁ h₁ c₂ h₂ tn₁ tn₂ htn₁ htn₂ hsup hnosup
    have e₁ := hchar c₁ h₁ tn₁ htn₁
    have e₂ := hchar c₂ h₂ tn₂ htn₂
    have hsup' : ¬lookupStr tn₁.methods method = none := by
      intro hx
      rw [hx] at hsup
      simp at hsup
    rw [if_neg hsup'] at e₁
    rw [if_pos hnosup] at e₂
    have hb₂ := scoreNode_lt_penalty c₂.chain pieces (hlen c₂ h₂)
    have hnn₁ := scoreNode_nonneg c₁.chain pieces 0
    omega
  refine ⟨hchar, hord, ?_⟩
  rintro ⟨c₁, hc₁, tn₁, htn₁, hsup⟩
  have hne : cands ≠ [] := by
    intro h
    rw [h] at hc₁
    simp at hc₁
  obtain ⟨b, tn, hmem, htn, hpick, hmax⟩ := pickNode_spec cands pieces method hne hterm
  refine ⟨⟨tn.value :: b.chain, tn⟩, hpick, ?_⟩
  by_contra hnone
  have hnone' : lookupStr tn.methods method = none := by
    cases hx : lookupStr tn.methods method
    · rfl
    · rw [hx] at hnone
      simp at hnone
  have hlt := hord c₁ hc₁ b hmem tn₁ tn htn₁ htn hsup hnone'
  have hle := hmax c₁ hc₁
  omega

/-- Witness for C3 on a concrete two-candidate set: the static candidate
holds GET directly, the dynamic one does not, so the selected terminator
holds GET. -/
theorem c3_method_penalty_witness :
    ∃ tc, pickNode [exCandV1, exCandId] ["v1"] "GET" = some tc ∧
      (lookupStr tc.node.methods "GET").isSome :=
  (c3_method_penalty [exCandV1, exCandId] ["v1"] "GET"
    (by intro c hc
        simp only [List.mem_cons, List.not_mem_nil, or_false] at hc
        rcases hc with rfl | rfl <;> decide)
    (by intro c hc
        simp only [List.mem_cons, List.not_mem_nil, or_false] at hc
        rcases hc with rfl | rfl <;> decide)).2.2
    ⟨exCandV1, by simp, exTermV1, rfl, by decide⟩

/-- Counterexample to C3 as stated: with `/v1` registered with only a
catch-all handler (handler 1) and `/{id}` bound to GET (handler 2), the
`/v1` candidate's method table holds the catch-all entry, yet its effective
score is still reduced by `10^(len+1)` (22 - 100), so the strictly less
specific dynamic candidate (score 21) wins and a GET to `/v1` runs handler
2 — the claim's "no penalty when the catch-all entry is present" predicts
handler 1. -/
theorem c3_counterexample :
    getHandlerOutcome (applyOps exC3ops) "/v1" "GET" = some (.matched 2 []) ∧
    (do
        let r ← applyOps exC3ops
        getAt r [.static "v1", .term]).map Node.methods = some [("*", 1)] ∧
    effScore
      ⟨[⟨"v1", false, false, false⟩, ⟨"", false, false, false⟩],
        ((do
            let r ← applyOps exC3ops
            getAt r [.static "v1"]).getD root0)⟩ ["v1"] "GET" = 22 - 100 ∧
    scoreNode [⟨"v1", false, false, false⟩, ⟨"", false, false, false⟩] ["v1"] 0 = 22 ∧
    scoreNode [⟨"id", true, false, false⟩, ⟨"", false, false, false⟩] ["v1"] 0 = 21 := by
  refine ⟨by decide, by decide, by decide, by decide, by decide⟩

/-! ## Parameter extraction -/

theorem lookupVals_mapAppend (m : List (String × List String)) (k : String) (v : String)
    (s : String) :
    lookupVals (mapAppend m k v) s =
      if k = s then lookupVals m s ++ [v] else lookupVals m s := by
  induction m with
  | nil =>
    by_cases h : k = s <;> simp [mapAppend, lookupVals, lookupStr, h]
  | cons kv rest ih =>
    obtain ⟨k', vs⟩ := kv
    rw [mapAppend]
    by_cases h1 : k' = k
    · subst h1
      by_cases h2 : k' = s <;> simp [lookupVals, lookupStr, h2]
    · simp only [h1, if_false]
      by_cases h2 : k' = s
      · subst h2
        simp only [lookupVals, lookupStr, if_true]
        have hks : ¬k = k' := fun h => h1 h.symm
        simp [hks]
      · simp only [lookupVals, lookupStr, h2, if_false] at ih ⊢
        exact ih

theorem varsRev_aligned :
    ∀ (rinput : List String) (c : List Key) (rk : Key) (name : String),
      c.length = rinput.length → (∀ k ∈ c, k.nul = false) →
      lookupVals (varsRev rinput (c ++ [rk])) name =
        ((c.zip rinput).filterMap
          (fun p => if p.1.dynamic = true ∧ p.1.value = name then some p.2 else none)).reverse := by
  intro rinput
  induction rinput with
  | nil =>
    intro c rk name hlen _
    have hc : c = [] := by
      cases c with
      | nil => rfl
      | cons k rest => simp at hlen
    subst hc
    simp [varsRev, lookupVals, lookupStr]
  | cons i ris ih =>
    intro c rk name hlen hnul
    cases c with
    | nil => simp at hlen
    | cons k rest =>
      have hk : k.nul = false := hnul k (by simp)
      rw [varsRev.eq_def]
      simp only [List.cons_append, hk, Bool.false_eq_true, if_false]
      have hlen' : rest.length = ris.length := by
        simp only [List.length_cons] at hlen
        omega
      have hnul' : ∀ k' ∈ rest, k'.nul = false := fun k' hk' => hnul k' (by simp [hk'])
      have hrec := ih rest rk name hlen' hnul'
      by_cases hd : k.dynamic
      · simp only [hd, if_true]
        rw [lookupVals_mapAppend, hrec]
        by_cases hv : k.value = name
        · simp [List.zip_cons_cons, List.filterMap_cons, hd, hv]
        · simp [List.zip_cons_cons, List.filterMap_cons, hd, hv]
      · simp only [hd, Bool.false_eq_true, if_false]
        rw [hrec]
        simp [List.zip_cons_cons, List.filterMap_cons, hd]

theorem varsRev_nul_head (rinput : List String) (k' : Key) (rest' : List Key)
    (hk' : k'.nul = false) :
    varsRev rinput (nulKey :: k' :: rest') = varsRev rinput (k' :: rest') := by
  cases rinput with
  | nil => rfl
  | cons i ris =>
    conv_lhs => rw [varsRev.eq_def]
    conv_rhs => rw [varsRev.eq_def]
    have hnul : nulKey.nul = true := rfl
    simp only [hnul, hk', Bool.false_eq_true, if_true, if_false]

/-- C6 (amended): for a match that consumed the whole segment list (the
chain of real keys, leaf first, is exactly as long as the input), parameter
extraction maps a name to the segments consumed at the dynamic ancestors of
that name, at each ancestor's own depth, in left-to-right template order
(repeated names give one entry listing first occurrence first); and the
repeated-name template `/posts/{id}/comments/{id}` binds
`id = ["4", "7"]` on a request for `/posts/4/comments/7`.  (In general the
code aligns the chain with the tail end of the segment list, which agrees
with per-depth consumption exactly when the whole list was consumed.) -/
theorem c6_param_extraction :
    (∀ (c : List Key) (rk : Key) (input : List String) (name : String),
      c.length = input.length → (∀ k ∈ c, k.nul = false) →
      lookupVals (vars (nulKey :: (c ++ [rk])) input) name =
        (c.reverse.zip input).filterMap
          (fun p => if p.1.dynamic = true ∧ p.1.value = name then some p.2 else none)) ∧
    (do
        let r ← applyOps exRepOps
        (routeFn r ["posts", "4", "comments", "7"] "GET").join).map Route.params
      = some [("id", ["4", "7"])] := by
  refine ⟨?_, by decide⟩
  intro c rk input name hlen hnul
  rw [vars]
  cases input with
  | nil =>
    have hc : c = [] := List.length_eq_zero.mp hlen
    subst hc
    simp [varsRev, lookupVals, lookupStr]
  | cons i is =>
    have hrev : ((i :: is).reverse) ≠ [] := by simp
    have hc : c ≠ [] := by
      intro h
      rw [h] at hlen
      simp at hlen
    cases c with
    | nil => exact absurd rfl hc
    | cons k rest =>
      have hk : k.nul = false := hnul k (by simp)
      rw [List.cons_append, varsRev_nul_head _ k (rest ++ [rk]) hk]
      have haligned : lookupVals (varsRev (i :: is).reverse (k :: (rest ++ [rk]))) name
          = (((k :: rest).zip (i :: is).reverse).filterMap
              (fun p => if p.1.dynamic = true ∧ p.1.value = name then some p.2 else none)).reverse :=
        varsRev_aligned (i :: is).reverse (k :: rest) rk name (by simpa using hlen) hnul
      have hzip : ((k :: rest).zip (i :: is).reverse).reverse
          = (k :: rest).reverse.zip (i :: is) := by
        rw [List.zip_eq_zipWith, List.zip_eq_zipWith, List.reverse_zipWith (by simpa using hlen)]
        simp
      rw [haligned, ← List.filterMap_reverse, hzip]

/-- Witness for C6 at the concrete chain of `/posts/{id}` and the request
`/posts/9`. -/
theorem c6_param_extraction_witness :
    lookupVals
      (vars (nulKey :: ([dynKey "id", staticKey "posts"] ++ [⟨"", false, false, false⟩]))
        ["posts", "9"]) "id" =
      (([dynKey "id", staticKey "posts"].reverse.zip ["posts", "9"]).filterMap
        (fun p => if p.1.dynamic = true ∧ p.1.value = "id" then some p.2 else none)) :=
  c6_param_extraction.1 [dynKey "id", staticKey "posts"] ⟨"", false, false, false⟩
    ["posts", "9"] "id" (by decide) (by decide)

/-- Counterexample to C6 as stated: with the dynamic prefix template `/{id}`
and the request segments `["a", "b"]`, the match consumes only `"a"` at the
dynamic `{id}` ancestor, but extraction binds `id = ["b"]` — the last
segment, not the one consumed at that ancestor's depth.  The second
conjunct exhibits the matched chain: the dynamic key sits at template depth
1, whose consumed segment is `"a"`. -/
theorem c6_counterexample :
    (do
        let r ← applyOps exC6ops
        (routeFn r ["a", "b"] "GET").join).map Route.params = some [("id", ["b"])] ∧
    ((do
        let r ← applyOps exC6ops
        findNodesT r ["a", "b"] : Option (List Cand)).map (fun cs => cs.map Cand.chain))
      = some [[⟨"id", true, true, false⟩, ⟨"", false, false, false⟩]] := by
  exact ⟨by decide, by decide⟩

/-! ## Insertion reuses existing structure -/

theorem keyEquals_self (k : Key) : k.keyEquals k = true :=
  (keyEquals_iff k k).mpr rfl

theorem firstWild_keyEquals {ws : List Node} {k : Key} {w : Node}
    (h : firstWild ws k = some w) : w.value.keyEquals k = true := by
  induction ws with
  | nil => cases h
  | cons w' ws ih =>
    rw [firstWild] at h
    by_cases hw : w'.value.keyEquals k
    · rw [if_pos hw] at h
      cases h
      exact hw
    · rw [if_neg hw] at h
      exact ih h

theorem firstWild_updFW_const {ws : List Node} {k : Key} (a : Node)
    (hfound : (firstWild ws k).isSome) (ha : a.value.keyEquals k = true) :
    firstWild (updFirstWild ws k (fun _ => a)) k = some a := by
  induction ws with
  | nil => simp [firstWild] at hfound
  | cons w ws ih =>
    rw [updFirstWild]
    by_cases hw : w.value.keyEquals k
    · rw [if_pos hw, firstWild, if_pos ha]
    · rw [if_neg hw, firstWild, if_neg hw]
      apply ih
      rw [firstWild, if_neg hw] at hfound
      exact hfound

theorem updFW_const_self {ws : List Node} {k : Key} {a : Node}
    (h : firstWild ws k = some a) : updFirstWild ws k (fun _ => a) = ws := by
  induction ws with
  | nil => rfl
  | cons w ws ih =>
    rw [firstWild] at h
    rw [updFirstWild]
    by_cases hw : w.value.keyEquals k
    · rw [if_pos hw] at h
      cases h
      rw [if_pos hw]
    · rw [if_neg hw] at h
      rw [if_neg hw, ih h]

theorem firstWild_append_none {ws : List Node} {k : Key} (a : Node)
    (h : firstWild ws k = none) :
    firstWild (ws ++ [a]) k = if a.value.keyEquals k then some a else none := by
  induction ws with
  | nil => rfl
  | cons w ws ih =>
    rw [firstWild] at h
    by_cases hw : w.value.keyEquals k
    · rw [if_pos hw] at h
      cases h
    · rw [if_neg hw] at h
      rw [List.cons_append, firstWild, if_neg hw]
      exact ih h

theorem lookupStr_setStr_self {α : Type} (m : List (String × α)) (s : String) (a : α) :
    lookupStr (setStr m s a) s = some a := by
  induction m with
  | nil => simp [setStr, lookupStr]
  | cons kv rest ih =>
    obtain ⟨k, v⟩ := kv
    rw [setStr]
    by_cases hk : k = s
    · rw [if_pos hk, lookupStr, if_pos hk]
    · rw [if_neg hk, lookupStr, if_neg hk]
      exact ih

theorem setStr_setStr_self {α : Type} (m : List (String × α)) (s : String) (a : α) :
    setStr (setStr m s a) s a = setStr m s a := by
  induction m with
  | nil => simp [setStr]
  | cons kv rest ih =>
    obtain ⟨k, v⟩ := kv
    rw [setStr]
    by_cases hk : k = s
    · rw [if_pos hk, setStr, if_pos hk]
    · rw [if_neg hk, setStr, if_neg hk, ih]

theorem lookupStr_append_self {α : Type} {m : List (String × α)} {s : String} (a : α)
    (h : lookupStr m s = none) : lookupStr (m ++ [(s, a)]) s = some a := by
  induction m with
  | nil => simp [lookupStr]
  | cons kv rest ih =>
    obtain ⟨k, v⟩ := kv
    rw [lookupStr] at h
    by_cases hk : k = s
    · rw [if_pos hk] at h
      cases h
    · rw [if_neg hk] at h
      rw [List.cons_append, lookupStr, if_neg hk]
      exact ih h

theorem setStr_append_self {α : Type} {m : List (String × α)} {s : String} (a : α)
    (h : lookupStr m s = none) : setStr (m ++ [(s, a)]) s a = m ++ [(s, a)] := by
  induction m with
  | nil => simp [setStr]
  | cons kv rest ih =>
    obtain ⟨k, v⟩ := kv
    rw [lookupStr] at h
    by_cases hk : k = s
    · rw [if_pos hk] at h
      cases h
    · rw [if_neg hk] at h
      rw [List.cons_append, setStr, if_neg hk, ih h]

theorem add_value (n : Node) (ks : List Key) : (add n ks).1.value = n.value := by
  obtain ⟨v, t, d, tm, ch, w, m, mw⟩ := n
  cases ks with
  | nil => cases tm <;> rfl
  | cons k rest =>
    by_cases hd : k.dynamic
    · cases hw : firstWild w k <;>
        simp [add, hd, hw, Node.value, Node.wildChildren]
    · cases hc : lookupStr ch k.value <;>
        simp [add, hd, hc, Node.value, Node.children]

theorem add_idem : ∀ (ks : List Key) (n : Node), add (add n ks).1 ks = add n ks := by
  intro ks
  induction ks with
  | nil =>
    intro n
    obtain ⟨v, t, d, tm, ch, w, m, mw⟩ := n
    cases tm <;> rfl
  | cons k rest ih =>
    intro n
    obtain ⟨v, t, d, tm, ch, w, m, mw⟩ := n
    by_cases hd : k.dynamic
    · cases hw : firstWild w k with
      | some wild =>
        have hval : (add wild rest).1.value = wild.value := add_value wild rest
        have hkeq : (add wild rest).1.value.keyEquals k = true := by
          rw [hval]
          exact firstWild_keyEquals hw
        have hfw : firstWild (updFirstWild w k (fun _ => (add wild rest).1)) k
            = some (add wild rest).1 :=
          firstWild_updFW_const _ (by simp [hw]) hkeq
        have hupd : updFirstWild (updFirstWild w k (fun _ => (add wild rest).1)) k
            (fun _ => (add wild rest).1) = updFirstWild w k (fun _ => (add wild rest).1) :=
          updFW_const_self hfw
        have hih : add (add wild rest).1 rest = add wild rest := ih wild
        simp only [add, hd, if_true, Node.wildChildren, Node.depth, hw, hfw, hih, hupd]
      | none =>
        have hval : (add (freshNode k d) rest).1.value = k := add_value (freshNode k d) rest
        have hkeq : (add (freshNode k d) rest).1.value.keyEquals k = true := by
          rw [hval]
          exact keyEquals_self k
        have hfw : firstWild (w ++ [(add (freshNode k d) rest).1]) k
            = some (add (freshNode k d) rest).1 := by
          rw [firstWild_append_none _ hw, if_pos hkeq]
        have hupd : updFirstWild (w ++ [(add (freshNode k d) rest).1]) k
            (fun _ => (add (freshNode k d) rest).1) = w ++ [(add (freshNode k d) rest).1] :=
          updFW_const_self hfw
        have hih : add (add (freshNode k d) rest).1 rest = add (freshNode k d) rest :=
          ih (freshNode k d)
        simp only [add, hd, if_true, hw, Node.wildChildren, Node.depth, hfw, hih, hupd]
    · cases hc : lookupStr ch k.value with
      | some c =>
        have hlk : lookupStr (setStr ch k.value (add c rest).1) k.value
            = some (add c rest).1 := lookupStr_setStr_self ch k.value (add c rest).1
        have hupd : setStr (setStr ch k.value (add c rest).1) k.value (add c rest).1
            = setStr ch k.value (add c rest).1 := setStr_setStr_self ch k.value (add c rest).1
        have hih : add (add c rest).1 rest = add c rest := ih c
        simp only [add, hd, Bool.false_eq_true, if_false, hc, Node.children, Node.depth,
          hlk, hih, hupd]
      | none =>
        have hlk : lookupStr (ch ++ [(k.value, (add (freshNode k d) rest).1)]) k.value
            = some (add (freshNode k d) rest).1 :=
          lookupStr_append_self _ hc
        have hupd : setStr (ch ++ [(k.value, (add (freshNode k d) rest).1)]) k.value
            (add (freshNode k d) rest).1 = ch ++ [(k.value, (add (freshNode k d) rest).1)] :=
          setStr_append_self _ hc
        have hih : add (add (freshNode k d) rest).1 rest = add (freshNode k d) rest :=
          ih (freshNode k d)
        simp only [add, hd, Bool.false_eq_true, if_false, hc, Node.children, Node.depth,
          hlk, hih, hupd]

/-- C7: insertion is idempotent — inserting a template's key list into a trie
that already contains it reuses every existing static and wildcard child and
the existing terminator, changing nothing and returning the same terminator
position; concretely, registering `/a/{b}` twice (binding GET then POST)
yields the single-chain trie `exC7tree` whose one terminator's method table
holds both methods. -/
theorem c7_insertion_idempotent :
    (∀ (ks : List Key) (n : Node), add (add n ks).1 ks = add n ks) ∧
    applyOps exC7ops = some exC7tree ∧
    (getAt exC7tree [.static "a", .wild ⟨"b", true, false, false⟩, .term]).map Node.methods
      = some [("GET", 1), ("POST", 2)] :=
  ⟨add_idem, rfl, by decide⟩

/-! ## Reading and rewriting positions in the tree -/

theorem getAt_nil (n : Node) : getAt n [] = some n := rfl

theorem getAt_cons (n : Node) (s : Step) (ps : List Step) :
    getAt n (s :: ps) = (childAt n s).bind (fun c => getAt c ps) := by
  cases s <;> rfl

theorem allNodes_self {P : Node → Prop} {t : Node}
    (h : ∀ pos n, getAt t pos = some n → P n) : P t :=
  h [] t rfl

theorem allNodes_child {P : Node → Prop} {t c : Node} {s : Step}
    (h : ∀ pos n, getAt t pos = some n → P n) (hc : childAt t s = some c) :
    ∀ pos n, getAt c pos = some n → P n := by
  intro pos n hpos
  refine h (s :: pos) n ?_
  rw [getAt_cons, hc]
  exact hpos

theorem allNodes_of_parts {P : Node → Prop} {t : Node} (h1 : P t)
    (h2 : ∀ s c, childAt t s = some c → ∀ pos n, getAt c pos = some n → P n) :
    ∀ pos n, getAt t pos = some n → P n := by
  intro pos n hpos
  cases pos with
  | nil => cases hpos; exact h1
  | cons s ps =>
    rw [getAt_cons] at hpos
    cases hc : childAt t s with
    | none => rw [hc] at hpos; cases hpos
    | some c =>
      rw [hc] at hpos
      exact h2 s c hc ps n hpos

theorem childAt_fresh (k : Key) (d : Nat) (s : Step) : childAt (freshNode k d) s = none := by
  cases s <;> rfl

theorem childAt_freshTerm (d : Nat) (s : Step) : childAt (freshTerm d) s = none := by
  cases s <;> rfl

theorem lookupStr_setStr_ne {α : Type} (m : List (String × α)) {s u : String} (a : α)
    (h : u ≠ s) : lookupStr (setStr m s a) u = lookupStr m u := by
  induction m with
  | nil =>
    simp only [setStr, lookupStr]
    rw [if_neg (fun hs => h hs.symm)]
  | cons kv rest ih =>
    obtain ⟨k, v⟩ := kv
    rw [setStr]
    by_cases hk : k = s
    · subst hk
      rw [if_pos rfl, lookupStr, lookupStr]
      by_cases hu : k = u
      · exact absurd hu.symm (by simpa using h)
      · rw [if_neg hu, if_neg hu]
    · rw [if_neg hk, lookupStr, lookupStr]
      by_cases hu : k = u
      · rw [if_pos hu, if_pos hu]
      · rw [if_neg hu, if_neg hu, ih]

theorem lookupStr_append_ne {α : Type} (m : List (String × α)) {s u : String} (a : α)
    (h : u ≠ s) : lookupStr (m ++ [(s, a)]) u = lookupStr m u := by
  induction m with
  | nil =>
    simp only [List.nil_append, lookupStr]
    rw [if_neg (fun hs => h hs.symm)]
  | cons kv rest ih =>
    obtain ⟨k, v⟩ := kv
    rw [List.cons_append, lookupStr, lookupStr]
    by_cases hu : k = u
    · rw [if_pos hu, if_pos hu]
    · rw [if_neg hu, if_neg hu, ih]

theorem lookupStr_updStr_self {α : Type} (m : List (String × α)) (s : String)
    (g : α → α) : lookupStr (updStr m s g) s = (lookupStr m s).map g := by
  induction m with
  | nil => rfl
  | cons kv rest ih =>
    obtain ⟨k, v⟩ := kv
    rw [updStr]
    by_cases hk : k = s
    · rw [if_pos hk, lookupStr, if_pos hk, lookupStr, if_pos hk]
      rfl
    · rw [if_neg hk, lookupStr, if_neg hk, lookupStr, if_neg hk, ih]

theorem lookupStr_updStr_ne {α : Type} (m : List (String × α)) {s u : String}
    (g : α → α) (h : u ≠ s) : lookupStr (updStr m s g) u = lookupStr m u := by
  induction m with
  | nil => rfl
  | cons kv rest ih =>
    obtain ⟨k, v⟩ := kv
    rw [updStr]
    by_cases hk : k = s
    · subst hk
      rw [if_pos rfl, lookupStr, lookupStr]
      by_cases hu : k = u
      · exact absurd hu.symm (by simpa using h)
      · rw [if_neg hu, if_neg hu]
    · rw [if_neg hk, lookupStr, lookupStr]
      by_cases hu : k = u
      · rw [if_pos hu, if_pos hu]
      · rw [if_neg hu, if_neg hu, ih]

theorem firstWild_updFW_map {ws : List Node} {k : Key} (f : Node → Node)
    (hf : ∀ x, x.value.keyEquals k = true → (f x).value = x.value) :
    firstWild (updFirstWild ws k f) k = (firstWild ws k).map f := by
  induction ws with
  | nil => rfl
  | cons w ws ih =>
    rw [updFirstWild, firstWild]
    by_cases hw : w.value.keyEquals k
    · rw [if_pos hw, firstWild]
      have : (f w).value.keyEquals k = true := by rw [hf w hw]; exact hw
      rw [if_pos this, if_pos hw]
      rfl
    · rw [if_neg hw, firstWild, if_neg hw, if_neg hw, ih]

theorem firstWild_updFW_ne {ws : List Node} {k k' : Key} (f : Node → Node)
    (hne : k' ≠ k) (hf : ∀ x, x.value.keyEquals k = true → (f x).value = x.value) :
    firstWild (updFirstWild ws k f) k' = firstWild ws k' := by
  induction ws with
  | nil => rfl
  | cons w ws ih =>
    rw [updFirstWild]
    by_cases hw : w.value.keyEquals k
    · rw [if_pos hw, firstWild, firstWild]
      have hv : w.value = k := (keyEquals_iff _ _).mp hw
      have hwk' : w.value.keyEquals k' = false := by
        rw [hv]
        cases hkk : k.keyEquals k'
        · rfl
        · exact absurd ((keyEquals_iff _ _).mp hkk).symm hne
      have hfwk' : (f w).value.keyEquals k' = false := by
        rw [hf w hw]
        exact hwk'
      rw [hfwk', hwk']
      simp
    · rw [if_neg hw, firstWild, firstWild, ih]

theorem firstWild_append_ne {ws : List Node} {k' : Key} (a : Node)
    (ha : a.value.keyEquals k' = false) :
    firstWild (ws ++ [a]) k' = firstWild ws k' := by
  induction ws with
  | nil => simp [firstWild, ha]
  | cons w ws ih =>
    rw [List.cons_append, firstWild, firstWild]
    by_cases hw : w.value.keyEquals k'
    · rw [if_pos hw, if_pos hw]
    · rw [if_neg hw, if_neg hw, ih]

/-! ## The shape invariant of registered tries -/

theorem good_self {t : Node} (h : Good t) : GoodNode t := allNodes_self h

theorem good_child {t c : Node} {s : Step} (h : Good t) (hc : childAt t s = some c) :
    Good c := allNodes_child h hc

theorem termNul_child {t c : Node} {s : Step} (h : TermNul t) (hc : childAt t s = some c) :
    TermNul c := allNodes_child h hc

theorem good_termNul {t : Node} (h : Good t) : TermNul t :=
  fun pos n hpos => (h pos n hpos).2.2

theorem good_leaf (n : Node) (h1 : GoodNode n) (h2 : ∀ s, childAt n s = none) : Good n :=
  allNodes_of_parts h1 (fun s c hc => absurd hc (by rw [h2 s]; simp))

theorem good_root0 : Good root0 := by
  refine good_leaf _ ⟨?_, ?_, ?_⟩ (fun s => by cases s <;> rfl)
  · intro h
    rcases h with h | h <;> exact absurd rfl h
  · intro h
    cases h
  · intro x hx
    cases hx

theorem good_fresh (k : Key) (d : Nat) (hk : k.pfx = false) : Good (freshNode k d) := by
  refine good_leaf _ ⟨?_, ?_, ?_⟩ (childAt_fresh k d)
  · intro h
    rcases h with h | h <;> exact absurd rfl h
  · intro h
    simp only [freshNode, Node.value] at h
    rw [hk] at h
    cases h
  · intro x hx
    cases hx

theorem good_freshTerm (d : Nat) : Good (freshTerm d) := by
  refine good_leaf _ ⟨?_, ?_, ?_⟩ (childAt_freshTerm d)
  · intro _
    rfl
  · intro h
    cases h
  · intro x hx
    cases hx

theorem termNul_fresh (k : Key) (d : Nat) : TermNul (freshNode k d) := by
  intro pos n hpos x hx
  cases pos with
  | nil =>
    cases hpos
    cases hx
  | cons s ps =>
    rw [getAt_cons, childAt_fresh] at hpos
    cases hpos

theorem add_fresh_nil (k : Key) (d : Nat) :
    add (freshNode k d) [] =
      (.mk k false (d + 1) (some (freshTerm (d + 1))) [] [] [] [], [Step.term]) := rfl

theorem good_add_fresh_nil (k : Key) (d : Nat) : Good ((add (freshNode k d) []).1) := by
  rw [add_fresh_nil]
  refine allNodes_of_parts ⟨?_, ?_, ?_⟩ ?_
  · intro h
    rcases h with h | h <;> exact absurd rfl h
  · intro _
    rfl
  · intro x hx
    cases hx
    rfl
  · intro s c hc
    cases s with
    | static u => cases hc
    | wild k' => cases hc
    | term =>
      cases hc
      exact good_freshTerm (d + 1)

theorem keysOk_tail {k : Key} {rest : List Key} (h : KeysOk (k :: rest)) : KeysOk rest := by
  intro x hx
  cases rest with
  | nil => simp at hx
  | cons r rs =>
    refine h x ?_
    simp only [List.dropLast]
    cases rs with
    | nil =>
      simp only [List.dropLast] at hx
      cases hx
    | cons r' rs' =>
      simp only [List.dropLast] at hx ⊢
      exact List.mem_cons_of_mem _ hx

theorem keysOk_head {k : Key} {rest : List Key} (h : KeysOk (k :: rest)) (hne : rest ≠ []) :
    k.pfx = false := by
  refine h k ?_
  cases rest with
  | nil => exact absurd rfl hne
  | cons r rs => simp [List.dropLast]

theorem add_pos_nul : ∀ (ks : List Key) (t : Node), TermNul t →
    ∃ m, getAt (add t ks).1 (add t ks).2 = some m ∧ m.value.nul = true := by
  intro ks
  induction ks with
  | nil =>
    intro t h
    obtain ⟨v, tb, d, tm, ch, w, m, mw⟩ := t
    cases tm with
    | none => exact ⟨freshTerm d, rfl, rfl⟩
    | some x =>
      refine ⟨x, rfl, ?_⟩
      exact h [] _ rfl x rfl
  | cons k rest ih =>
    intro t h
    obtain ⟨v, tb, d, tm, ch, w, m, mw⟩ := t
    by_cases hd : k.dynamic
    · cases hw : firstWild w k with
      | some wild =>
        have hwild : TermNul wild := termNul_child h (s := .wild k) hw
        obtain ⟨mm, hmm, hnul⟩ := ih wild hwild
        have hkeq : (add wild rest).1.value.keyEquals k = true := by
          rw [add_value]
          exact firstWild_keyEquals hw
        refine ⟨mm, ?_, hnul⟩
        simp only [add, hd, if_true, Node.wildChildren, Node.depth, hw]
        rw [getAt_cons]
        have : childAt (Node.mk v tb d tm ch (updFirstWild w k fun _ => (add wild rest).1) m mw)
            (.wild k) = some (add wild rest).1 :=
          firstWild_updFW_const _ (by simp [hw]) hkeq
        rw [this]
        exact hmm
      | none =>
        obtain ⟨mm, hmm, hnul⟩ := ih (freshNode k d) (termNul_fresh k d)
        have hkeq : (add (freshNode k d) rest).1.value.keyEquals k = true := by
          rw [add_value]
          exact keyEquals_self k
        refine ⟨mm, ?_, hnul⟩
        simp only [add, hd, if_true, Node.wildChildren, Node.depth, hw]
        rw [getAt_cons]
        have : childAt (Node.mk v tb d tm ch (w ++ [(add (freshNode k d) rest).1]) m mw)
            (.wild k) = some (add (freshNode k d) rest).1 := by
          show firstWild (w ++ [(add (freshNode k d) rest).1]) k = _
          rw [firstWild_append_none _ hw, if_pos hkeq]
        rw [this]
        exact hmm
    · cases hc : lookupStr ch k.value with
      | some c =>
        have hcg : TermNul c := termNul_child h (s := .static k.value) hc
        obtain ⟨mm, hmm, hnul⟩ := ih c hcg
        refine ⟨mm, ?_, hnul⟩
        simp only [add, hd, Bool.false_eq_true, if_false, Node.children, Node.depth, hc]
        rw [getAt_cons]
        have : childAt (Node.mk v tb d tm (setStr ch k.value (add c rest).1) w m mw)
            (.static k.value) = some (add c rest).1 :=
          lookupStr_setStr_self ch k.value (add c rest).1
        rw [this]
        exact hmm
      | none =>
        obtain ⟨mm, hmm, hnul⟩ := ih (freshNode k d) (termNul_fresh k d)
        refine ⟨mm, ?_, hnul⟩
        simp only [add, hd, Bool.false_eq_true, if_false, Node.children, Node.depth, hc]
        rw [getAt_cons]
        have : childAt (Node.mk v tb d tm (ch ++ [(k.value, (add (freshNode k d) rest).1)])
            w m mw) (.static k.value) = some (add (freshNode k d) rest).1 :=
          lookupStr_append_self _ hc
        rw [this]
        exact hmm

theorem goodNode_mk_iff (v : Key) (tb : Bool) (d : Nat) (tm : Option Node)
    (ch ch' : List (String × Node)) (w w' : List Node) (m : List (String × Nat))
    (mw : List (String × List Nat)) :
    GoodNode (.mk v tb d tm ch w m mw) ↔ GoodNode (.mk v tb d tm ch' w' m mw) := Iff.rfl

theorem add_good : ∀ (ks : List Key) (t : Node), Good t → KeysOk ks →
    Good (add t ks).1 := by
  intro ks
  induction ks with
  | nil =>
    intro t hg _
    obtain ⟨v, tb, d, tm, ch, w, m, mw⟩ := t
    cases tm with
    | some x => exact hg
    | none =>
      show Good (Node.mk v tb d (some (freshTerm d)) ch w m mw)
      refine allNodes_of_parts ⟨?_, ?_, ?_⟩ ?_
      · exact fun h => (good_self hg).1 h
      · intro _
        rfl
      · intro x hx
        cases hx
        rfl
      · intro s c hc
        cases s with
        | static u => exact good_child hg (s := .static u) hc
        | wild k' => exact good_child hg (s := .wild k') hc
        | term =>
          cases hc
          exact good_freshTerm d
  | cons k rest ih =>
    intro t hg hk
    obtain ⟨v, tb, d, tm, ch, w, m, mw⟩ := t
    by_cases hd : k.dynamic
    · cases hw : firstWild w k with
      | some wild =>
        have hkeq : (add wild rest).1.value.keyEquals k = true := by
          rw [add_value]
          exact firstWild_keyEquals hw
        have hval : ∀ x : Node, x.value.keyEquals k = true →
            ((fun _ => (add wild rest).1) x).value = x.value := by
          intro x hx
          rw [add_value]
          have h1 := (keyEquals_iff _ _).mp (firstWild_keyEquals hw)
          have h2 := (keyEquals_iff _ _).mp hx
          rw [h1, h2]
        have hrec : Good (add wild rest).1 :=
          ih wild (good_child hg (s := .wild k) hw) (keysOk_tail hk)
        simp only [add, hd, if_true, Node.wildChildren, Node.depth, hw]
        refine allNodes_of_parts ?_ ?_
        · exact (goodNode_mk_iff v tb d tm ch ch w
            (updFirstWild w k fun _ => (add wild rest).1) m mw).mp (good_self hg)
        · intro s c hc
          cases s with
          | static u => exact good_child hg (s := .static u) hc
          | term => exact good_child hg (s := .term) hc
          | wild k' =>
            by_cases hkk : k' = k
            · rw [hkk] at hc
              have : childAt (Node.mk v tb d tm ch
                  (updFirstWild w k fun _ => (add wild rest).1) m mw) (.wild k)
                  = some (add wild rest).1 :=
                firstWild_updFW_const _ (by simp [hw]) hkeq
              rw [this] at hc
              cases hc
              exact hrec
            · have : childAt (Node.mk v tb d tm ch
                  (updFirstWild w k fun _ => (add wild rest).1) m mw) (.wild k')
                  = firstWild w k' := firstWild_updFW_ne _ hkk hval
              rw [show (childAt (Node.mk v tb d tm ch
                  (updFirstWild w k fun _ => (add wild rest).1) m mw) (.wild k')) =
                  firstWild w k' from this] at hc
              exact good_child hg (s := .wild k') hc
      | none =>
        have hrec : Good (add (freshNode k d) rest).1 := by
          by_cases hp : k.pfx
          · have hrest : rest = [] := by
              cases rest with
              | nil => rfl
              | cons r rs => exact absurd (keysOk_head hk (by simp)) (by simp [hp])
            subst hrest
            exact good_add_fresh_nil k d
          · exact ih (freshNode k d) (good_fresh k d (by simpa using hp)) (keysOk_tail hk)
        have hkeq : (add (freshNode k d) rest).1.value.keyEquals k = true := by
          rw [add_value]
          exact keyEquals_self k
        simp only [add, hd, if_true, Node.wildChildren, Node.depth, hw]
        refine allNodes_of_parts ?_ ?_
        · exact (goodNode_mk_iff v tb d tm ch ch w
            (w ++ [(add (freshNode k d) rest).1]) m mw).mp (good_self hg)
        · intro s c hc
          cases s with
          | static u => exact good_child hg (s := .static u) hc
          | term => exact good_child hg (s := .term) hc
          | wild k' =>
            by_cases hkk : k' = k
            · rw [hkk] at hc
              have : childAt (Node.mk v tb d tm ch
                  (w ++ [(add (freshNode k d) rest).1]) m mw) (.wild k)
                  = some (add (freshNode k d) rest).1 := by
                show firstWild (w ++ [(add (freshNode k d) rest).1]) k = _
                rw [firstWild_append_none _ hw, if_pos hkeq]
              rw [this] at hc
              cases hc
              exact hrec
            · have hane : (add (freshNode k d) rest).1.value.keyEquals k' = false := by
                rw [add_value]
                show k.keyEquals k' = false
                cases hkx : k.keyEquals k'
                · rfl
                · exact absurd ((keyEquals_iff _ _).mp hkx).symm hkk
              have : childAt (Node.mk v tb d tm ch
                  (w ++ [(add (freshNode k d) rest).1]) m mw) (.wild k')
                  = firstWild w k' := firstWild_append_ne _ hane
              rw [this] at hc
              exact good_child hg (s := .wild k') hc
    · cases hc : lookupStr ch k.value with
      | some c =>
        have hrec : Good (add c rest).1 :=
          ih c (good_child hg (s := .static k.value) hc) (keysOk_tail hk)
        simp only [add, hd, Bool.false_eq_true, if_false, Node.children, Node.depth, hc]
        refine allNodes_of_parts ?_ ?_
        · exact (goodNode_mk_iff v tb d tm ch
            (setStr ch k.value (add c rest).1) w w m mw).mp (good_self hg)
        · intro s c' hc'
          cases s with
          | wild k' => exact good_child hg (s := .wild k') hc'
          | term => exact good_child hg (s := .term) hc'
          | static u =>
            by_cases hu : u = k.value
            · rw [hu] at hc'
              have : childAt (Node.mk v tb d tm (setStr ch k.value (add c rest).1) w m mw)
                  (.static k.value) = some (add c rest).1 :=
                lookupStr_setStr_self ch k.value (add c rest).1
              rw [this] at hc'
              cases hc'
              exact hrec
            · have : childAt (Node.mk v tb d tm (setStr ch k.value (add c rest).1) w m mw)
                  (.static u) = lookupStr ch u :=
                lookupStr_setStr_ne ch _ hu
              rw [this] at hc'
              exact good_child hg (s := .static u) hc'
      | none =>
        have hrec : Good (add (freshNode k d) rest).1 := by
          by_cases hp : k.pfx
          · have hrest : rest = [] := by
              cases rest with
              | nil => rfl
              | cons r rs => exact absurd (keysOk_head hk (by simp)) (by simp [hp])
            subst hrest
            exact good_add_fresh_nil k d
          · exact ih (freshNode k d) (good_fresh k d (by simpa using hp)) (keysOk_tail hk)
        simp only [add, hd, Bool.false_eq_true, if_false, Node.children, Node.depth, hc]
        refine allNodes_of_parts ?_ ?_
        · exact (goodNode_mk_iff v tb d tm ch
            (ch ++ [(k.value, (add (freshNode k d) rest).1)]) w w m mw).mp (good_self hg)
        · intro s c' hc'
          cases s with
          | wild k' => exact good_child hg (s := .wild k') hc'
          | term => exact good_child hg (s := .term) hc'
          | static u =>
            by_cases hu : u = k.value
            · rw [hu] at hc'
              have : childAt (Node.mk v tb d tm
                  (ch ++ [(k.value, (add (freshNode k d) rest).1)]) w m mw) (.static k.value)
                  = some (add (freshNode k d) rest).1 :=
                lookupStr_append_self _ hc
              rw [this] at hc'
              cases hc'
              exact hrec
            · have : childAt (Node.mk v tb d tm
                  (ch ++ [(k.value, (add (freshNode k d) rest).1)]) w m mw) (.static u)
                  = lookupStr ch u :=
                lookupStr_append_ne ch _ hu
              rw [this] at hc'
              exact good_child hg (s := .static u) hc'

theorem modifyAt_nil (t : Node) (f : Node → Node) : modifyAt t [] f = f t := by
  obtain ⟨v, tb, d, tm, ch, w, m, mw⟩ := t
  rfl

theorem modifyAt_static (v : Key) (tb : Bool) (d : Nat) (tm : Option Node)
    (ch : List (String × Node)) (w : List Node) (m : List (String × Nat))
    (mw : List (String × List Nat)) (u : String) (ps : List Step) (f : Node → Node) :
    modifyAt (.mk v tb d tm ch w m mw) (.static u :: ps) f
      = .mk v tb d tm (updStr ch u (fun c => modifyAt c ps f)) w m mw := rfl

theorem modifyAt_wild (v : Key) (tb : Bool) (d : Nat) (tm : Option Node)
    (ch : List (String × Node)) (w : List Node) (m : List (String × Nat))
    (mw : List (String × List Nat)) (k : Key) (ps : List Step) (f : Node → Node) :
    modifyAt (.mk v tb d tm ch w m mw) (.wild k :: ps) f
      = .mk v tb d tm ch (updFirstWild w k (fun c => modifyAt c ps f)) m mw := rfl

theorem modifyAt_term (v : Key) (tb : Bool) (d : Nat) (tm : Option Node)
    (ch : List (String × Node)) (w : List Node) (m : List (String × Nat))
    (mw : List (String × List Nat)) (ps : List Step) (f : Node → Node) :
    modifyAt (.mk v tb d tm ch w m mw) (.term :: ps) f
      = .mk v tb d (tm.map (fun c => modifyAt c ps f)) ch w m mw := rfl

theorem tableOnly_applyBind (b : Bind) : TableOnly (applyBind b) := by
  intro n
  obtain ⟨v, tb, d, tm, ch, w, m, mw⟩ := n
  cases b <;> exact ⟨rfl, rfl, rfl, rfl⟩

theorem modifyAt_value {f : Node → Node} (hf : TableOnly f) :
    ∀ (ps : List Step) (c : Node), (modifyAt c ps f).value = c.value := by
  intro ps c
  cases ps with
  | nil => rw [modifyAt_nil]; exact (hf c).1
  | cons s ps' =>
    obtain ⟨v, tb, d, tm, ch, w, m, mw⟩ := c
    cases s <;> rfl

theorem childAt_modifyAt_map {f : Node → Node} (hf : TableOnly f)
    (ps : List Step) (t : Node) (s : Step) :
    childAt (modifyAt t (s :: ps) f) s
      = (childAt t s).map (fun c => modifyAt c ps f) := by
  obtain ⟨v, tb, d, tm, ch, w, m, mw⟩ := t
  cases s with
  | static u =>
    show lookupStr (updStr ch u fun x => modifyAt x ps f) u = _
    rw [lookupStr_updStr_self]
    rfl
  | wild k =>
    show firstWild (updFirstWild w k fun x => modifyAt x ps f) k = _
    rw [firstWild_updFW_map _ (fun x _ => modifyAt_value hf ps x)]
    rfl
  | term => rfl

theorem childAt_modifyAt_self {f : Node → Node} (hf : TableOnly f)
    (ps : List Step) (t c : Node) (s : Step) (hc : childAt t s = some c) :
    childAt (modifyAt t (s :: ps) f) s = some (modifyAt c ps f) := by
  rw [childAt_modifyAt_map hf, hc]
  rfl

theorem childAt_modifyAt_ne {f : Node → Node} (hf : TableOnly f)
    (ps : List Step) (t : Node) (s s' : Step) (hne : s' ≠ s) :
    childAt (modifyAt t (s :: ps) f) s' = childAt t s' := by
  obtain ⟨v, tb, d, tm, ch, w, m, mw⟩ := t
  cases s with
  | static u =>
    cases s' with
    | static u' =>
      have hu : u' ≠ u := fun h => hne (by rw [h])
      exact lookupStr_updStr_ne ch _ hu
    | wild k' => rfl
    | term => rfl
  | wild k =>
    cases s' with
    | static u' => rfl
    | wild k' =>
      have hk : k' ≠ k := fun h => hne (by rw [h])
      exact firstWild_updFW_ne _ hk (fun x _ => modifyAt_value hf ps x)
    | term => rfl
  | term =>
    cases s' with
    | static u' => rfl
    | wild k' => rfl
    | term => exact absurd rfl hne

theorem childAt_tableOnly {f : Node → Node} (hf : TableOnly f) (t : Node) (s : Step) :
    childAt (f t) s = childAt t s := by
  obtain ⟨h1, h2, h3, h4⟩ := hf t
  cases s with
  | static u => show lookupStr (f t).children u = _; rw [h3]; rfl
  | wild k => show firstWild (f t).wildChildren k = _; rw [h4]; rfl
  | term => show (f t).terminator = _; rw [h2]; rfl

theorem getAt_modifyAt_self {f : Node → Node} (hf : TableOnly f) :
    ∀ (pos : List Step) (t n : Node), getAt t pos = some n →
      getAt (modifyAt t pos f) pos = some (f n) := by
  intro pos
  induction pos with
  | nil =>
    intro t n h
    cases h
    rw [modifyAt_nil]
    rfl
  | cons s ps ih =>
    intro t n h
    rw [getAt_cons] at h
    cases hc : childAt t s with
    | none => rw [hc] at h; cases h
    | some c =>
      rw [hc] at h
      rw [getAt_cons, childAt_modifyAt_self hf ps t c s hc]
      exact ih c n h

theorem good_modifyAt {f : Node → Node} (hf : TableOnly f) :
    ∀ (pos : List Step) (t : Node), Good t →
      (∀ n, getAt t pos = some n → n.value.nul = true) → Good (modifyAt t pos f) := by
  intro pos
  induction pos with
  | nil =>
    intro t hg hp
    rw [modifyAt_nil]
    have hnul : t.value.nul = true := hp t rfl
    obtain ⟨hv, htm, hch, hw⟩ := hf t
    refine allNodes_of_parts ⟨?_, ?_, ?_⟩ ?_
    · intro _
      rw [hv]
      exact hnul
    · intro h
      rw [hv] at h
      rw [htm]
      exact (good_self hg).2.1 h
    · intro x hx
      rw [htm] at hx
      exact (good_self hg).2.2 x hx
    · intro s c hc
      rw [childAt_tableOnly hf] at hc
      exact good_child hg hc
  | cons s ps ih =>
    intro t hg hp
    refine allNodes_of_parts ?_ ?_
    · obtain ⟨v, tb, d, tm, ch, w, m, mw⟩ := t
      cases s with
      | static u =>
        rw [modifyAt_static]
        exact (goodNode_mk_iff v tb d tm ch _ w w m mw).mp (good_self hg)
      | wild k =>
        rw [modifyAt_wild]
        exact (goodNode_mk_iff v tb d tm ch ch w _ m mw).mp (good_self hg)
      | term =>
        rw [modifyAt_term]
        refine ⟨(good_self hg).1, ?_, ?_⟩
        · intro h
          have h2 := (good_self hg).2.1 h
          show (tm.map (fun x => modifyAt x ps f)).isSome
          cases tm
          · cases h2
          · rfl
        · intro x hx
          cases tm with
          | none => cases hx
          | some y =>
            have hxy : x = modifyAt y ps f := by
              have h' : some (modifyAt y ps f) = some x := hx
              exact (Option.some.inj h').symm
            rw [hxy, modifyAt_value hf]
            exact (good_self hg).2.2 y rfl
    · intro s' c hc
      by_cases hss : s' = s
      · subst hss
        cases hcc : childAt t s' with
        | none =>
          rw [childAt_modifyAt_map hf, hcc] at hc
          cases hc
        | some c0 =>
          rw [childAt_modifyAt_self hf ps t c0 s' hcc] at hc
          cases hc
          refine ih c0 (good_child hg hcc) ?_
          intro n hn
          refine hp n ?_
          rw [getAt_cons, hcc]
          exact hn
      · rw [childAt_modifyAt_ne hf ps t s s' hss] at hc
        exact good_child hg hc

theorem getAt_modifyAt_none {f : Node → Node} (hf : TableOnly f) :
    ∀ (pos : List Step) (t : Node), getAt t pos = none →
      getAt (modifyAt t pos f) pos = none := by
  intro pos
  induction pos with
  | nil =>
    intro t h
    cases h
  | cons s ps ih =>
    intro t h
    rw [getAt_cons] at h
    rw [getAt_cons, childAt_modifyAt_map hf]
    cases hc : childAt t s with
    | none => rfl
    | some c0 =>
      rw [hc] at h
      exact ih c0 h

theorem keyOfPiece_pfx (p : String) : (keyOfPiece p).pfx = false := by
  rw [keyOfPiece]
  split <;> rfl

theorem keysFromString_pfx (s : String) : ∀ k ∈ keysFromString s, k.pfx = false := by
  intro k hk
  rcases List.mem_map.mp hk with ⟨p, _, rfl⟩
  exact keyOfPiece_pfx p

theorem keysOk_of_all {ks : List Key} (h : ∀ k ∈ ks, k.pfx = false) : KeysOk ks :=
  fun k hk => h k (List.dropLast_subset ks hk)

theorem setLastPfx_ne_nil {ks : List Key} (h : ks ≠ []) : setLastPfx ks ≠ [] := by
  cases ks with
  | nil => exact absurd rfl h
  | cons k rest => cases rest <;> simp [setLastPfx]

theorem keysOk_setLastPfx : ∀ {ks : List Key}, (∀ k ∈ ks, k.pfx = false) →
    KeysOk (setLastPfx ks) := by
  intro ks
  induction ks with
  | nil => intro _ k hk; cases hk
  | cons k rest ih =>
    intro h
    cases rest with
    | nil =>
      intro x hx
      simp [setLastPfx, List.dropLast] at hx
    | cons k' rest' =>
      intro x hx
      rw [show setLastPfx (k :: k' :: rest') = k :: setLastPfx (k' :: rest') from rfl] at hx
      rw [List.dropLast_cons_of_ne_nil (setLastPfx_ne_nil (by simp))] at hx
      rcases List.mem_cons.mp hx with rfl | hx
      · exact h x (by simp)
      · exact ih (fun y hy => h y (by simp [hy])) x hx

theorem good_reg (root : Node) (keys : List Key) (bs : List Bind) (hg : Good root)
    (hko : KeysOk keys) :
    Good (bs.foldl (fun acc b => modifyAt acc (add root keys).2 (applyBind b))
      (add root keys).1) := by
  obtain ⟨mnul, hm, hmnul⟩ := add_pos_nul keys root (good_termNul hg)
  have hstart : Good (add root keys).1 := add_good keys root hg hko
  have hfold : ∀ (bs' : List Bind) (tt : Node), Good tt →
      (∀ n, getAt tt (add root keys).2 = some n → n.value.nul = true) →
      Good (bs'.foldl (fun acc b => modifyAt acc (add root keys).2 (applyBind b)) tt) := by
    intro bs'
    induction bs' with
    | nil => intro tt hgt _; exact hgt
    | cons b bs' ihb =>
      intro tt hgt hn
      rw [List.foldl_cons]
      refine ihb _ (good_modifyAt (tableOnly_applyBind b) _ tt hgt hn) ?_
      intro n hgetn
      cases hx : getAt tt (add root keys).2 with
      | none =>
        rw [getAt_modifyAt_none (tableOnly_applyBind b) _ tt hx] at hgetn
        cases hgetn
      | some m0 =>
        rw [getAt_modifyAt_self (tableOnly_applyBind b) _ tt m0 hx] at hgetn
        cases hgetn
        rw [(tableOnly_applyBind b m0).1]
        exact hn m0 hx
  refine hfold bs (add root keys).1 hstart ?_
  intro n hn
  rw [hm] at hn
  cases hn
  exact hmnul

theorem good_applyOp (t : Option Node) (op : RegOp)
    (h : ∀ root, t = some root → Good root) :
    ∀ root', applyOp t op = some root' → Good root' := by
  intro root' hroot'
  have hg : Good (t.getD root0) := by
    cases t with
    | none => exact good_root0
    | some r => exact h r rfl
  have hko : KeysOk (if op.isPrefixReg then setLastPfx (keysFromString op.tpl)
      else keysFromString op.tpl) := by
    by_cases hp : op.isPrefixReg
    · rw [if_pos hp]
      exact keysOk_setLastPfx (keysFromString_pfx op.tpl)
    · rw [if_neg hp]
      exact keysOk_of_all (keysFromString_pfx op.tpl)
  have := good_reg (t.getD root0)
    (if op.isPrefixReg then setLastPfx (keysFromString op.tpl) else keysFromString op.tpl)
    op.binds hg hko
  simp only [applyOp, Option.some.injEq] at hroot'
  rw [← hroot']
  exact this

theorem good_foldl : ∀ (ops : List RegOp) (t : Option Node),
    (∀ root, t = some root → Good root) →
    ∀ root, ops.foldl applyOp t = some root → Good root := by
  intro ops
  induction ops with
  | nil =>
    intro t h root hroot
    exact h root hroot
  | cons op ops ih =>
    intro t h root hroot
    rw [List.foldl_cons] at hroot
    exact ih (applyOp t op) (good_applyOp t op h) root hroot

theorem good_applyOps (ops : List RegOp) (root : Node) (h : applyOps ops = some root) :
    Good root :=
  good_foldl ops none (fun _ hx => by cases hx) root h

/-- C8: after any sequence of Endpoint, Prefix, Methods.Handler, Handler and
Middleware registrations, every reachable node whose handler or middleware
table is non-empty is a terminator node (or a prefix node); intermediate
path nodes keep empty tables. -/
theorem c8_tables_only_on_terminators (ops : List RegOp) (root : Node) (pos : List Step)
    (n : Node) (h1 : applyOps ops = some root) (h2 : getAt root pos = some n)
    (h3 : n.methods ≠ [] ∨ n.middleware ≠ []) :
    n.value.nul = true ∨ n.value.pfx = true :=
  Or.inl ((good_applyOps ops root h1 pos n h2).1 h3)

/-- Witness for C8 at the concrete registration `/a` bound to GET. -/
theorem c8_tables_only_on_terminators_witness :
    exC8term.value.nul = true ∨ exC8term.value.pfx = true :=
  c8_tables_only_on_terminators exC8ops ((applyOps exC8ops).getD root0)
    [.static "a", .term] exC8term rfl rfl (by decide)

/-! ## The search invariant is maintained by registration -/

theorem updFW_map_value {ws : List Node} {k : Key} (f : Node → Node)
    (hf : ∀ x, x.value.keyEquals k = true → (f x).value = x.value) :
    (updFirstWild ws k f).map Node.value = ws.map Node.value := by
  induction ws with
  | nil => rfl
  | cons w ws ih =>
    rw [updFirstWild]
    by_cases hw : w.value.keyEquals k
    · rw [if_pos hw, List.map_cons, List.map_cons, hf w hw]
    · rw [if_neg hw, List.map_cons, List.map_cons, ih]

theorem wild_reachable : ∀ {ws : List Node} {w : Node},
    (ws.map Node.value).Pairwise (fun a b => a ≠ b) → w ∈ ws →
    firstWild ws w.value = some w := by
  intro ws
  induction ws with
  | nil => intro w _ hw; cases hw
  | cons w' ws ih =>
    intro w hpw hw
    rw [List.map_cons, List.pairwise_cons] at hpw
    rcases List.mem_cons.mp hw with rfl | hw
    · rw [firstWild, if_pos (keyEquals_self w.value)]
    · rw [firstWild]
      have hne : ¬w'.value.keyEquals w.value = true := by
        intro hx
        exact hpw.1 w.value (List.mem_map_of_mem Node.value hw) ((keyEquals_iff _ _).mp hx)
      rw [if_neg hne]
      exact ih hpw.2 hw

theorem firstWild_none_forall {ws : List Node} {k : Key} (h : firstWild ws k = none) :
    ∀ x ∈ ws, x.value.keyEquals k = false := by
  induction ws with
  | nil => intro x hx; cases hx
  | cons w ws ih =>
    intro x hx
    rw [firstWild] at h
    by_cases hw : w.value.keyEquals k
    · rw [if_pos hw] at h
      cases h
    · rw [if_neg hw] at h
      rcases List.mem_cons.mp hx with rfl | hx
      · simpa using hw
      · exact ih h x hx

theorem searchNode_mk_iff (v : Key) (tb : Bool) (d : Nat) (tm : Option Node)
    (ch ch' : List (String × Node)) (w : List Node) (m : List (String × Nat))
    (mw : List (String × List Nat)) :
    SearchNode (.mk v tb d tm ch w m mw) ↔ SearchNode (.mk v tb d tm ch' w m mw) := Iff.rfl

theorem searchWF_self {t : Node} (h : SearchWF t) : SearchNode t := allNodes_self h

theorem searchWF_child {t c : Node} {s : Step} (h : SearchWF t) (hc : childAt t s = some c) :
    SearchWF c := allNodes_child h hc

theorem searchWF_leaf (n : Node) (h1 : SearchNode n) (h2 : ∀ s, childAt n s = none) :
    SearchWF n :=
  allNodes_of_parts h1 (fun s c hc => absurd hc (by rw [h2 s]; simp))

theorem searchWF_fresh (k : Key) (d : Nat) (hk : k.pfx = false) :
    SearchWF (freshNode k d) := by
  refine searchWF_leaf _ ⟨?_, ?_⟩ (childAt_fresh k d)
  · intro h
    simp only [freshNode, Node.value] at h
    rw [hk] at h
    cases h
  · exact List.Pairwise.nil

theorem searchWF_freshTerm (d : Nat) : SearchWF (freshTerm d) := by
  refine searchWF_leaf _ ⟨?_, ?_⟩ (childAt_freshTerm d)
  · intro h
    cases h
  · exact List.Pairwise.nil

theorem searchWF_add_fresh_nil (k : Key) (d : Nat) :
    SearchWF ((add (freshNode k d) []).1) := by
  rw [add_fresh_nil]
  refine allNodes_of_parts ⟨?_, ?_⟩ ?_
  · intro _
    rfl
  · exact List.Pairwise.nil
  · intro s c hc
    cases s with
    | static u => cases hc
    | wild k' => cases hc
    | term =>
      cases hc
      exact searchWF_freshTerm (d + 1)

theorem searchWF_add : ∀ (ks : List Key) (t : Node), SearchWF t → KeysOk ks →
    SearchWF (add t ks).1 := by
  intro ks
  induction ks with
  | nil =>
    intro t hg _
    obtain ⟨v, tb, d, tm, ch, w, m, mw⟩ := t
    cases tm with
    | some x => exact hg
    | none =>
      show SearchWF (Node.mk v tb d (some (freshTerm d)) ch w m mw)
      refine allNodes_of_parts ⟨?_, ?_⟩ ?_
      · intro _
        rfl
      · exact (searchWF_self hg).2
      · intro s c hc
        cases s with
        | static u => exact searchWF_child hg (s := .static u) hc
        | wild k' => exact searchWF_child hg (s := .wild k') hc
        | term =>
          cases hc
          exact searchWF_freshTerm d
  | cons k rest ih =>
    intro t hg hk
    obtain ⟨v, tb, d, tm, ch, w, m, mw⟩ := t
    by_cases hd : k.dynamic
    · cases hw : firstWild w k with
      | some wild =>
        have hkeq : (add wild rest).1.value.keyEquals k = true := by
          rw [add_value]
          exact firstWild_keyEquals hw
        have hval : ∀ x : Node, x.value.keyEquals k = true →
            ((fun _ => (add wild rest).1) x).value = x.value := by
          intro x hx
          rw [add_value]
          have h1 := (keyEquals_iff _ _).mp (firstWild_keyEquals hw)
          have h2 := (keyEquals_iff _ _).mp hx
          rw [h1, h2]
        have hrec : SearchWF (add wild rest).1 :=
          ih wild (searchWF_child hg (s := .wild k) hw) (keysOk_tail hk)
        simp only [add, hd, if_true, Node.wildChildren, Node.depth, hw]
        refine allNodes_of_parts ⟨(searchWF_self hg).1, ?_⟩ ?_
        · show ((updFirstWild w k fun _ => (add wild rest).1).map Node.value).Pairwise _
          rw [updFW_map_value _ hval]
          exact (searchWF_self hg).2
        · intro s c hc
          cases s with
          | static u => exact searchWF_child hg (s := .static u) hc
          | term => exact searchWF_child hg (s := .term) hc
          | wild k' =>
            by_cases hkk : k' = k
            · rw [hkk] at hc
              have : childAt (Node.mk v tb d tm ch
                  (updFirstWild w k fun _ => (add wild rest).1) m mw) (.wild k)
                  = some (add wild rest).1 :=
                firstWild_updFW_const _ (by simp [hw]) hkeq
              rw [this] at hc
              cases hc
              exact hrec
            · have : childAt (Node.mk v tb d tm ch
                  (updFirstWild w k fun _ => (add wild rest).1) m mw) (.wild k')
                  = firstWild w k' := firstWild_updFW_ne _ hkk hval
              rw [this] at hc
              exact searchWF_child hg (s := .wild k') hc
      | none =>
        have hrec : SearchWF (add (freshNode k d) rest).1 := by
          by_cases hp : k.pfx
          · have hrest : rest = [] := by
              cases rest with
              | nil => rfl
              | cons r rs => exact absurd (keysOk_head hk (by simp)) (by simp [hp])
            subst hrest
            exact searchWF_add_fresh_nil k d
          · exact ih (freshNode k d) (searchWF_fresh k d (by simpa using hp)) (keysOk_tail hk)
        have hkeq : (add (freshNode k d) rest).1.value.keyEquals k = true := by
          rw [add_value]
          exact keyEquals_self k
        simp only [add, hd, if_true, Node.wildChildren, Node.depth, hw]
        refine allNodes_of_parts ⟨(searchWF_self hg).1, ?_⟩ ?_
        · show ((w ++ [(add (freshNode k d) rest).1]).map Node.value).Pairwise _
          rw [List.map_append, List.pairwise_append]
          refine ⟨(searchWF_self hg).2, by simp, ?_⟩
          intro a ha b hb
          rcases List.mem_map.mp ha with ⟨x, hx, rfl⟩
          simp only [List.map_cons, List.map_nil, List.mem_singleton] at hb
          subst hb
          have hbk : (add (freshNode k d) rest).1.value = k := by
            rw [add_value]
            rfl
          rw [hbk]
          have hxk := firstWild_none_forall hw x hx
          intro hcontra
          rw [hcontra, keyEquals_self] at hxk
          cases hxk
        · intro s c hc
          cases s with
          | static u => exact searchWF_child hg (s := .static u) hc
          | term => exact searchWF_child hg (s := .term) hc
          | wild k' =>
            by_cases hkk : k' = k
            · rw [hkk] at hc
              have : childAt (Node.mk v tb d tm ch
                  (w ++ [(add (freshNode k d) rest).1]) m mw) (.wild k)
                  = some (add (freshNode k d) rest).1 := by
                show firstWild (w ++ [(add (freshNode k d) rest).1]) k = _
                rw [firstWild_append_none _ hw, if_pos hkeq]
              rw [this] at hc
              cases hc
              exact hrec
            · have hane : (add (freshNode k d) rest).1.value.keyEquals k' = false := by
                rw [add_value]
                show k.keyEquals k' = false
                cases hkx : k.keyEquals k'
                · rfl
                · exact absurd ((keyEquals_iff _ _).mp hkx).symm hkk
              have : childAt (Node.mk v tb d tm ch
                  (w ++ [(add (freshNode k d) rest).1]) m mw) (.wild k')
                  = firstWild w k' := firstWild_append_ne _ hane
              rw [this] at hc
              exact searchWF_child hg (s := .wild k') hc
    · cases hc : lookupStr ch k.value with
      | some c =>
        have hrec : SearchWF (add c rest).1 :=
          ih c (searchWF_child hg (s := .static k.value) hc) (keysOk_tail hk)
        simp only [add, hd, Bool.false_eq_true, if_false, Node.children, Node.depth, hc]
        refine allNodes_of_parts
          ((searchNode_mk_iff v tb d tm ch (setStr ch k.value (add c rest).1) w m mw).mp
            (searchWF_self hg)) ?_
        · intro s c' hc'
          cases s with
          | wild k' => exact searchWF_child hg (s := .wild k') hc'
          | term => exact searchWF_child hg (s := .term) hc'
          | static u =>
            by_cases hu : u = k.value
            · rw [hu] at hc'
              have : childAt (Node.mk v tb d tm (setStr ch k.value (add c rest).1) w m mw)
                  (.static k.value) = some (add c rest).1 :=
                lookupStr_setStr_self ch k.value (add c rest).1
              rw [this] at hc'
              cases hc'
              exact hrec
            · have : childAt (Node.mk v tb d tm (setStr ch k.value (add c rest).1) w m mw)
                  (.static u) = lookupStr ch u :=
                lookupStr_setStr_ne ch _ hu
              rw [this] at hc'
              exact searchWF_child hg (s := .static u) hc'
      | none =>
        have hrec : SearchWF (add (freshNode k d) rest).1 := by
          by_cases hp : k.pfx
          · have hrest : rest = [] := by
              cases rest with
              | nil => rfl
              | cons r rs => exact absurd (keysOk_head hk (by simp)) (by simp [hp])
            subst hrest
            exact searchWF_add_fresh_nil k d
          · exact ih (freshNode k d) (searchWF_fresh k d (by simpa using hp)) (keysOk_tail hk)
        simp only [add, hd, Bool.false_eq_true, if_false, Node.children, Node.depth, hc]
        refine allNodes_of_parts
          ((searchNode_mk_iff v tb d tm ch
            (ch ++ [(k.value, (add (freshNode k d) rest).1)]) w m mw).mp
            (searchWF_self hg)) ?_
        · intro s c' hc'
          cases s with
          | wild k' => exact searchWF_child hg (s := .wild k') hc'
          | term => exact searchWF_child hg (s := .term) hc'
          | static u =>
            by_cases hu : u = k.value
            · rw [hu] at hc'
              have : childAt (Node.mk v tb d tm
                  (ch ++ [(k.value, (add (freshNode k d) rest).1)]) w m mw) (.static k.value)
                  = some (add (freshNode k d) rest).1 :=
                lookupStr_append_self _ hc
              rw [this] at hc'
              cases hc'
              exact hrec
            · have : childAt (Node.mk v tb d tm
                  (ch ++ [(k.value, (add (freshNode k d) rest).1)]) w m mw) (.static u)
                  = lookupStr ch u :=
                lookupStr_append_ne ch _ hu
              rw [this] at hc'
              exact searchWF_child hg (s := .static u) hc'

theorem searchWF_modifyAt {f : Node → Node} (hf : TableOnly f) :
    ∀ (pos : List Step) (t : Node), SearchWF t → SearchWF (modifyAt t pos f) := by
  intro pos
  induction pos with
  | nil =>
    intro t hg
    rw [modifyAt_nil]
    obtain ⟨hv, htm, hch, hwl⟩ := hf t
    refine allNodes_of_parts ⟨?_, ?_⟩ ?_
    · intro h
      rw [hv] at h
      rw [htm]
      exact (searchWF_self hg).1 h
    · rw [hwl]
      exact (searchWF_self hg).2
    · intro s c hc
      rw [childAt_tableOnly hf] at hc
      exact searchWF_child hg hc
  | cons s ps ih =>
    intro t hg
    refine allNodes_of_parts ?_ ?_
    · obtain ⟨v, tb, d, tm, ch, w, m, mw⟩ := t
      cases s with
      | static u =>
        rw [modifyAt_static]
        exact (searchNode_mk_iff v tb d tm ch _ w m mw).mp (searchWF_self hg)
      | wild k =>
        rw [modifyAt_wild]
        refine ⟨(searchWF_self hg).1, ?_⟩
        show ((updFirstWild w k fun c => modifyAt c ps f).map Node.value).Pairwise _
        rw [updFW_map_value _ (fun x _ => modifyAt_value hf ps x)]
        exact (searchWF_self hg).2
      | term =>
        rw [modifyAt_term]
        refine ⟨?_, (searchWF_self hg).2⟩
        intro h
        have h2 := (searchWF_self hg).1 h
        show (tm.map (fun x => modifyAt x ps f)).isSome
        cases tm
        · cases h2
        · rfl
    · intro s' c hc
      by_cases hss : s' = s
      · subst hss
        cases hcc : childAt t s' with
        | none =>
          rw [childAt_modifyAt_map hf, hcc] at hc
          cases hc
        | some c0 =>
          rw [childAt_modifyAt_self hf ps t c0 s' hcc] at hc
          cases hc
          exact ih c0 (searchWF_child hg hcc)
      · rw [childAt_modifyAt_ne hf ps t s s' hss] at hc
        exact searchWF_child hg hc

theorem searchWF_applyOp (t : Option Node) (op : RegOp)
    (h : ∀ root, t = some root → SearchWF root) :
    ∀ root', applyOp t op = some root' → SearchWF root' := by
  intro root' hroot'
  have hg : SearchWF (t.getD root0) := by
    cases t with
    | none =>
      refine searchWF_leaf _ ⟨?_, List.Pairwise.nil⟩ (fun s => by cases s <;> rfl)
      intro hx
      cases hx
    | some r => exact h r rfl
  have hko : KeysOk (if op.isPrefixReg then setLastPfx (keysFromString op.tpl)
      else keysFromString op.tpl) := by
    by_cases hp : op.isPrefixReg
    · rw [if_pos hp]
      exact keysOk_setLastPfx (keysFromString_pfx op.tpl)
    · rw [if_neg hp]
      exact keysOk_of_all (keysFromString_pfx op.tpl)
  have hadd := searchWF_add
    (if op.isPrefixReg then setLastPfx (keysFromString op.tpl) else keysFromString op.tpl)
    (t.getD root0) hg hko
  have hfold : ∀ (bs : List Bind) (tt : Node), SearchWF tt →
      SearchWF (bs.foldl (fun acc b => modifyAt acc
        (add (t.getD root0) (if op.isPrefixReg then setLastPfx (keysFromString op.tpl)
          else keysFromString op.tpl)).2 (applyBind b)) tt) := by
    intro bs
    induction bs with
    | nil => intro tt hgt; exact hgt
    | cons b bs ihb =>
      intro tt hgt
      rw [List.foldl_cons]
      exact ihb _ (searchWF_modifyAt (tableOnly_applyBind b) _ tt hgt)
  simp only [applyOp, Option.some.injEq] at hroot'
  rw [← hroot']
  exact hfold op.binds _ hadd

theorem searchWF_foldl : ∀ (ops : List RegOp) (t : Option Node),
    (∀ root, t = some root → SearchWF root) →
    ∀ root, ops.foldl applyOp t = some root → SearchWF root := by
  intro ops
  induction ops with
  | nil => intro t h root hroot; exact h root hroot
  | cons op ops ih =>
    intro t h root hroot
    rw [List.foldl_cons] at hroot
    exact ih (applyOp t op) (searchWF_applyOp t op h) root hroot

theorem searchWF_applyOps (ops : List RegOp) (root : Node)
    (h : applyOps ops = some root) : SearchWF root :=
  searchWF_foldl ops none (fun _ hx => by cases hx) root h

/-! ## Every search result owns a terminator (on well-formed tries) -/

theorem findNodes_terminator :
    ∀ (path : List String) (anc : List Key) (n : Node), SearchWF n →
      ∀ cs, findNodes path anc n = some cs → ∀ c ∈ cs, c.node.terminator.isSome := by
  intro path
  induction path with
  | nil =>
    intro anc n hg cs hcs c hc
    rw [findNodes_nil] at hcs
    by_cases hp : n.value.pfx
    · rw [if_pos hp] at hcs
      cases hcs
      rcases List.mem_singleton.mp hc with rfl
      exact (searchWF_self hg).1 hp
    · rw [if_neg hp] at hcs
      cases hcs
  | cons p rest ih =>
    intro anc n hg cs hcs c hc
    rw [findNodes_cons] at hcs
    by_cases hp : n.value.pfx
    · rw [if_pos hp] at hcs
      cases hcs
      rcases List.mem_singleton.mp hc with rfl
      exact (searchWF_self hg).1 hp
    · rw [if_neg hp] at hcs
      rcases hstat : (match lookupStr n.children p with
          | none => some []
          | some c =>
            if rest.length < 1 then
              some (if c.terminator.isSome then ([⟨c.value :: (n.value :: anc), c⟩] : List Cand)
                else [])
            else findNodes rest (n.value :: anc) c) with _ | a
      · rw [hstat] at hcs
        cases hcs
      · rw [hstat] at hcs
        rcases hwild : goWilds (fun w => findNodes rest (n.value :: anc) w) (n.value :: anc)
            n.wildChildren rest with _ | b
        · rw [hwild] at hcs
          cases hcs
        · rw [hwild] at hcs
          simp only at hcs
          cases hcs
          rcases List.mem_append.mp hc with hc | hc
          · cases hl : lookupStr n.children p with
            | none =>
              rw [hl] at hstat
              cases hstat
              simp at hc
            | some child =>
              rw [hl] at hstat
              by_cases hr : rest.length < 1
              · simp only [hr, if_true] at hstat
                cases hstat
                by_cases ht : child.terminator.isSome
                · simp only [ht, if_true, List.mem_singleton] at hc
                  subst hc
                  exact ht
                · simp [ht] at hc
              · simp only [hr, if_false] at hstat
                exact ih (n.value :: anc) child
                  (searchWF_child hg (s := .static p) hl) a hstat c hc
          · refine goWilds_forall (fun c' => c'.node.terminator.isSome) ?_ ?_ b hwild c hc
            · intro w _ _ hterm
              exact hterm
            · intro w hwmem cs' hcs' c' hc'
              have hww : childAt n (.wild w.value) = some w :=
                wild_reachable (searchWF_self hg).2 hwmem
              exact ih (n.value :: anc) w (searchWF_child hg hww) cs' hcs' c' hc'

/-! ## C1: the dispatch taxonomy of getHandler -/

/-- C1 (corrected): on a well-formed trie and a non-empty piece list the
search is total; an empty candidate set yields NotFound; a non-empty
candidate set yields a selected terminator `tc`, and then: a direct method
hit resolves that handler (Matched, with the method's middleware); a method
miss with a catch-all hit resolves the catch-all handler; a miss of both
with a NON-EMPTY method table yields MethodNotAllowed carrying the
supported-method list; but — contrary to the claim — a miss of both with an
EMPTY method table yields NotFound, not MethodNotAllowed, even though a
candidate matched the path. -/
theorem c1_dispatch_taxonomy (root : Node) (pieces : List String) (method : String)
    (hwf : SearchWF root) (hne : pieces ≠ []) :
    ∃ cs, findNodesT root pieces = some cs ∧
      (cs = [] → outcomeOf (some root) pieces method = some .notFound) ∧
      (cs ≠ [] → ∃ tc, pickNode cs pieces method = some tc ∧
        (∀ h, lookupStr tc.node.methods method = some h →
          outcomeOf (some root) pieces method =
            some (.matched h ((lookupStr tc.node.middleware method).getD []))) ∧
        (lookupStr tc.node.methods method = none →
          (∀ h, lookupStr tc.node.methods catchAllMethod = some h →
            outcomeOf (some root) pieces method =
              some (.matched h ((lookupStr tc.node.middleware catchAllMethod).getD []))) ∧
          (lookupStr tc.node.methods catchAllMethod = none →
            (tc.node.methods = [] →
              outcomeOf (some root) pieces method = some .notFound) ∧
            (tc.node.methods ≠ [] →
              outcomeOf (some root) pieces method =
                some (.methodNotAllowed (tc.node.methods.map Prod.fst)))))) := by
  rcases Option.isSome_iff_exists.mp (findNodes_isSome pieces hne [] root) with ⟨cs, hcs⟩
  have hT : findNodesT root pieces = some cs := hcs
  refine ⟨cs, hT, ?_, ?_⟩
  · intro hnil
    subst hnil
    rw [outcomeOf, routeFn, hT]
    rfl
  · intro hne'
    have hlen : ¬ cs.length < 1 := by
      cases cs with
      | nil => exact absurd rfl hne'
      | cons a l => simp
    have hterm : ∀ c ∈ cs, c.node.terminator.isSome :=
      fun c hc => findNodes_terminator pieces [] root hwf cs hcs c hc
    obtain ⟨b, tn, hmem, htn, hpick, _⟩ := pickNode_spec cs pieces method hne' hterm
    have hroute : routeFn root pieces method = some (some
        { handler := match lookupStr tn.methods method with
            | some h => some h
            | none => lookupStr tn.methods catchAllMethod
          pattern := pathString (tn.value :: b.chain)
          params := vars (tn.value :: b.chain) pieces
          methods := tn.methods.map Prod.fst
          middleware := match lookupStr tn.methods method with
            | some _ => (lookupStr tn.middleware method).getD []
            | none => (lookupStr tn.middleware catchAllMethod).getD [] }) := by
      rw [routeFn, hT]
      dsimp only
      rw [if_neg hlen, hpick]
    refine ⟨⟨tn.value :: b.chain, tn⟩, hpick, ?_, ?_⟩
    · intro h hm
      dsimp only at hm
      rw [outcomeOf, hroute]
      dsimp only
      rw [hm]
    · intro hm
      dsimp only at hm
      refine ⟨?_, ?_⟩
      · intro h hca
        dsimp only at hca
        rw [outcomeOf, hroute]
        dsimp only
        rw [hm, hca]
      · intro hca
        dsimp only at hca
        refine ⟨?_, ?_⟩
        · intro hempty
          dsimp only at hempty
          rw [outcomeOf, hroute]
          dsimp only
          rw [hm, hca, hempty]
          rfl
        · intro hnonempty
          dsimp only at hnonempty
          rw [outcomeOf, hroute]
          dsimp only
          rw [hm, hca]
          dsimp only
          have hlen2 : ¬ (tn.methods.map Prod.fst).length < 1 := by
            rw [List.length_map]
            have := List.length_pos.mpr hnonempty
            omega
          rw [if_neg hlen2]

/-- C1 counterexample: after registering `/x` with no handler ever bound, a
GET to `/x` finds exactly one candidate, that candidate owns a terminator,
the selected terminator's method table holds neither GET nor the catch-all —
yet the outcome is NotFound, not MethodNotAllowed. -/
theorem c1_counterexample :
    getHandlerOutcome (applyOps exC1ops) "/x" "GET" = some .notFound ∧
    (findNodesT exC1root (splitPath "/x")).map (fun cs => cs.length) = some 1 ∧
    (findNodesT exC1root (splitPath "/x")).map
      (fun cs => cs.map (fun c => c.node.terminator.isSome)) = some [true] ∧
    (((findNodesT exC1root (splitPath "/x")).bind
      (fun cs => pickNode cs (splitPath "/x") "GET")).map
      (fun tc => (lookupStr tc.node.methods "GET",
        lookupStr tc.node.methods catchAllMethod))) = some (none, none) := by
  refine ⟨rfl, rfl, rfl, rfl⟩

/-- Witness for C1 at the trie of `exC1ops` with a GET to `["x"]`. -/
theorem c1_dispatch_taxonomy_witness :
    SearchWF exC1root ∧ (["x"] : List String) ≠ [] ∧
    (∃ cs, findNodesT exC1root ["x"] = some cs ∧
      (cs = [] → outcomeOf (some exC1root) ["x"] "GET" = some .notFound) ∧
      (cs ≠ [] → ∃ tc, pickNode cs ["x"] "GET" = some tc ∧
        (∀ h, lookupStr tc.node.methods "GET" = some h →
          outcomeOf (some exC1root) ["x"] "GET" =
            some (.matched h ((lookupStr tc.node.middleware "GET").getD []))) ∧
        (lookupStr tc.node.methods "GET" = none →
          (∀ h, lookupStr tc.node.methods catchAllMethod = some h →
            outcomeOf (some exC1root) ["x"] "GET" =
              some (.matched h ((lookupStr tc.node.middleware catchAllMethod).getD []))) ∧
          (lookupStr tc.node.methods catchAllMethod = none →
            (tc.node.methods = [] →
              outcomeOf (some exC1root) ["x"] "GET" = some .notFound) ∧
            (tc.node.methods ≠ [] →
              outcomeOf (some exC1root) ["x"] "GET" =
                some (.methodNotAllowed (tc.node.methods.map Prod.fst))))))) :=
  ⟨searchWF_applyOps exC1ops exC1root rfl, by decide,
   c1_dispatch_taxonomy exC1root ["x"] "GET"
     (searchWF_applyOps exC1ops exC1root rfl) (by decide)⟩

end Trout
